import Mathlib

/-!
Shallow embedding, in Lean 4, of the crawl-frontier scheduler implemented in
`enhanced_web_crawler.py` and `documented_web_crawler.py`:

* `canonicalize` (URL canonicalization on top of CPython's `urllib.parse.urlsplit`),
* `TokenBucket` (per-host rate limiter),
* the frontier services (`EnhancedFrontierService` and `FrontierService`) with
  their `heapq`-based priority queues,
* the `heapq` functions (`heappush`, `heapify` and the two sift helpers),
  translated from CPython's `heapq.py`.

Modelling conventions:

* Python `float` values are modelled exactly as rational numbers, represented by
  the kernel-computable type `Frac` (an integer numerator with a positive natural
  denominator, compared by cross multiplication, no normalisation).  All float
  literals of the source (`0.6`, `0.25`, `0.15`, `1.0`) are exactly representable
  as rationals, so arithmetic results coincide with an idealised real-valued
  reading of the code; IEEE rounding is not modelled.
* `time.monotonic()` is modelled by passing the current clock reading as an
  explicit rational argument to every operation that reads the clock.  All clock
  reads performed inside one operation are modelled at the same reading.
* Python strings are modelled as Lean `String`s; all string functions used by the
  source are re-implemented structurally on `List Char` so that they compute by
  kernel reduction.  Comparison is by code point, as in Python (inputs relevant
  here are ASCII).
* Python `set`/`dict` are modelled as lists (of keys, resp. key-value pairs);
  only membership, insertion and per-key update are used by the source.
-/

/-! ## Exact fractions: the model of Python floats -/

/-- Exact rational numbers used to model Python floats: an integer numerator with
a positive natural denominator.  No normalisation is performed; equality of
values is the cross-multiplication test `beq`, mirroring Python `==` on floats. -/
structure Frac where
  num : Int
  den : Nat
  den_pos : 0 < den

/-- The rational value denoted by a `Frac`; used to transfer order and field
lemmas from `ℚ`. -/
def Frac.toRat (a : Frac) : ℚ := (a.num : ℚ) / (a.den : ℚ)

/-- Integer literal as a `Frac`. -/
def Frac.ofNat (n : Nat) : Frac := ⟨n, 1, Nat.one_pos⟩

/-- Fraction literal `n / d` (for translating decimal float literals such as
`0.6 = lit 6 10`). -/
def Frac.lit (n : Int) (d : Nat) (h : 0 < d := by decide) : Frac := ⟨n, d, h⟩

/-- Addition of fractions by cross multiplication. -/
def Frac.add (a b : Frac) : Frac :=
  ⟨a.num * b.den + b.num * a.den, a.den * b.den, Nat.mul_pos a.den_pos b.den_pos⟩

/-- Subtraction of fractions by cross multiplication. -/
def Frac.sub (a b : Frac) : Frac :=
  ⟨a.num * b.den - b.num * a.den, a.den * b.den, Nat.mul_pos a.den_pos b.den_pos⟩

/-- Multiplication of fractions. -/
def Frac.mul (a b : Frac) : Frac :=
  ⟨a.num * b.num, a.den * b.den, Nat.mul_pos a.den_pos b.den_pos⟩

/-- Division of fractions.  Division by zero (which raises `ZeroDivisionError`
in Python and is never executed by the embedded code) is mapped to `0`. -/
def Frac.div (a b : Frac) : Frac :=
  if h : b.num = 0 then ⟨0, 1, Nat.one_pos⟩
  else
    ⟨(if b.num < 0 then -(a.num * (b.den : Int)) else a.num * (b.den : Int)),
      a.den * b.num.natAbs,
      Nat.mul_pos a.den_pos (Int.natAbs_pos.mpr h)⟩

/-- Strict comparison of fractions (Python `<` on floats). -/
def Frac.blt (a b : Frac) : Bool := decide (a.num * (b.den : Int) < b.num * (a.den : Int))

/-- Non-strict comparison of fractions (Python `<=` on floats). -/
def Frac.ble (a b : Frac) : Bool := decide (a.num * (b.den : Int) ≤ b.num * (a.den : Int))

/-- Value equality of fractions (Python `==` on floats). -/
def Frac.beq (a b : Frac) : Bool := decide (a.num * (b.den : Int) = b.num * (a.den : Int))

/-- Binary minimum, returning the first argument on ties as Python `min` does. -/
def Frac.min (a b : Frac) : Frac := if Frac.blt b a then b else a

theorem Frac.den_cast_pos (a : Frac) : (0 : ℚ) < (a.den : ℚ) := by
  exact_mod_cast a.den_pos

theorem Frac.blt_iff (a b : Frac) : a.blt b = true ↔ a.toRat < b.toRat := by
  rw [Frac.blt, decide_eq_true_iff, Frac.toRat, Frac.toRat,
    div_lt_div_iff a.den_cast_pos b.den_cast_pos]
  exact_mod_cast Iff.rfl

theorem Frac.ble_iff (a b : Frac) : a.ble b = true ↔ a.toRat ≤ b.toRat := by
  rw [Frac.ble, decide_eq_true_iff, Frac.toRat, Frac.toRat,
    div_le_div_iff a.den_cast_pos b.den_cast_pos]
  exact_mod_cast Iff.rfl

theorem Frac.beq_iff (a b : Frac) : a.beq b = true ↔ a.toRat = b.toRat := by
  rw [Frac.beq, decide_eq_true_iff, Frac.toRat, Frac.toRat,
    div_eq_div_iff (ne_of_gt a.den_cast_pos) (ne_of_gt b.den_cast_pos)]
  exact_mod_cast Iff.rfl

theorem Frac.ble_eq_not_blt (a b : Frac) : a.ble b = !b.blt a := by
  rw [Frac.ble, Frac.blt]
  rcases le_or_lt (a.num * (b.den : Int)) (b.num * (a.den : Int)) with h | h
  · simp [h, not_lt.mpr h]
  · simp [not_le.mpr h, h]

theorem Frac.toRat_add (a b : Frac) : (a.add b).toRat = a.toRat + b.toRat := by
  rw [Frac.add, Frac.toRat, Frac.toRat, Frac.toRat, div_add_div _ _
    (ne_of_gt a.den_cast_pos) (ne_of_gt b.den_cast_pos)]
  push_cast
  ring_nf

theorem Frac.toRat_sub (a b : Frac) : (a.sub b).toRat = a.toRat - b.toRat := by
  rw [Frac.sub, Frac.toRat, Frac.toRat, Frac.toRat, div_sub_div _ _
    (ne_of_gt a.den_cast_pos) (ne_of_gt b.den_cast_pos)]
  push_cast
  ring_nf

theorem Frac.toRat_mul (a b : Frac) : (a.mul b).toRat = a.toRat * b.toRat := by
  rw [Frac.mul, Frac.toRat, Frac.toRat, Frac.toRat, div_mul_div_comm]
  push_cast
  ring_nf

theorem Frac.toRat_min (a b : Frac) : (Frac.min a b).toRat = Min.min a.toRat b.toRat := by
  rw [Frac.min]
  rcases h : Frac.blt b a with _ | _
  · have : ¬ b.toRat < a.toRat := by
      intro hc
      rw [← Frac.blt_iff] at hc
      simp [h] at hc
    simp [min_eq_left (not_lt.mp this)]
  · have := (Frac.blt_iff b a).mp h
    simp [min_eq_right (le_of_lt this)]

theorem Frac.toRat_ofNat (n : Nat) : (Frac.ofNat n).toRat = (n : ℚ) := by
  simp [Frac.ofNat, Frac.toRat]

/-! ## Python string primitives, implemented structurally on `List Char` -/

/-- Code-point equality of characters (Python `==` on one-character strings). -/
def charEqB (a b : Char) : Bool := a == b

/-- Structural equality of character lists. -/
def charListEq : List Char → List Char → Bool
  | [], [] => true
  | [], _ :: _ => false
  | _ :: _, [] => false
  | a :: as, b :: bs => charEqB a b && charListEq as bs

/-- Equality of strings by code points (Python `==` on strings). -/
def strEqB (a b : String) : Bool := charListEq a.data b.data

/-- Membership of a character in a list (Python `c in str`). -/
def charMem (c : Char) : List Char → Bool
  | [] => false
  | a :: as => charEqB a c || charMem c as

/-- Lexicographic code-point comparison of character lists (Python `<` on
strings). -/
def charListLt : List Char → List Char → Bool
  | [], [] => false
  | [], _ :: _ => true
  | _ :: _, [] => false
  | a :: as, b :: bs =>
    if a.toNat < b.toNat then true
    else if b.toNat < a.toNat then false
    else charListLt as bs

/-- Python `<` on strings. -/
def strLtB (a b : String) : Bool := charListLt a.data b.data

/-- ASCII lower-casing of one character (Python `str.lower`; the embedded inputs
are ASCII). -/
def pyCharLower (c : Char) : Char :=
  if c.toNat ≥ 65 ∧ c.toNat ≤ 90 then Char.ofNat (c.toNat + 32) else c

/-- ASCII lower-casing of a string. -/
def pyLower (s : String) : String := String.mk (s.data.map pyCharLower)

/-- Python `str.startswith` on character lists. -/
def charListStartsWith : List Char → List Char → Bool
  | _, [] => true
  | [], _ :: _ => false
  | a :: as, b :: bs => charEqB a b && charListStartsWith as bs

/-- Python `str.startswith`. -/
def pyStartsWith (s pre : String) : Bool := charListStartsWith s.data pre.data

/-- Python `str.endswith` for a one-character suffix (the only use in the
source is `path.endswith("/")`). -/
def pyEndsWithChar (s : String) (c : Char) : Bool :=
  match s.data.getLast? with
  | some d => charEqB d c
  | none => false

/-- ASCII whitespace characters stripped by Python `str.strip()` (the embedded
inputs contain no non-ASCII whitespace). -/
def isPySpace (c : Char) : Bool :=
  c.toNat == 32 || c.toNat == 9 || c.toNat == 10 || c.toNat == 13 ||
    c.toNat == 11 || c.toNat == 12

/-- Python `str.strip()` (both ends). -/
def pyStrip (s : String) : String :=
  String.mk (((s.data.dropWhile (fun c => isPySpace c)).reverse.dropWhile
    (fun c => isPySpace c)).reverse)

/-- Characters with code point at most 32; `urlsplit` strips them from the left
end of its input (`_WHATWG_C0_CONTROL_OR_SPACE`). -/
def isC0OrSpace (c : Char) : Bool := c.toNat ≤ 32

/-- Python `str.split(sep)` for a one-character separator, on character lists.
Like Python, it returns `[""]` on empty input. -/
def charListSplit (sep : Char) (cs : List Char) : List (List Char) :=
  match cs with
  | [] => [[]]
  | c :: rest =>
    let r := charListSplit sep rest
    if charEqB c sep then [] :: r
    else
      match r with
      | [] => [[c]]
      | g :: gs => (c :: g) :: gs

/-- Python `str.split(sep, 1)`: split at the first occurrence of `sep` only,
returning `none` when `sep` does not occur. -/
def charListSplitFirst (sep : Char) : List Char → Option (List Char × List Char)
  | [] => none
  | c :: rest =>
    if charEqB c sep then some ([], rest)
    else
      match charListSplitFirst sep rest with
      | some (l, r) => some (c :: l, r)
      | none => none

/-- Python `str.partition(sep)` restricted to what the source needs: the pair of
the part before the first `sep` and the part after it (empty when absent). -/
def charListPartition (sep : Char) (cs : List Char) : List Char × List Char :=
  match charListSplitFirst sep cs with
  | some (l, r) => (l, r)
  | none => (cs, [])

/-- Python `str.rpartition(sep)` restricted to what the source needs: the part
after the last `sep` (the whole string when absent). -/
def charListAfterLast (sep : Char) (cs : List Char) : List Char :=
  ((cs.reverse.takeWhile (fun c => !charEqB c sep))).reverse

/-- Python `str.find(c)`-style test: the part of `cs` strictly before the first
occurrence of any character from `seps`, together with the rest (starting with
the delimiter when one was found).  Used to model `_splitnetloc`. -/
def charListSpanUntil (seps : List Char) (cs : List Char) : List Char × List Char :=
  match cs with
  | [] => ([], [])
  | c :: rest =>
    if charMem c seps then ([], c :: rest)
    else
      let (l, r) := charListSpanUntil seps rest
      (c :: l, r)

/-- Python `str.join` for a one-character separator. -/
def charListJoin (sep : Char) : List (List Char) → List Char
  | [] => []
  | [g] => g
  | g :: gs => g ++ sep :: charListJoin sep gs

/-- All-ASCII-digits test (Python `str.isdigit() and str.isascii()` as used by
the `port` property). -/
def charListAllDigits (cs : List Char) : Bool :=
  cs.all (fun c => 48 ≤ c.toNat && c.toNat ≤ 57) && !cs.isEmpty

/-- Decimal value of an ASCII digit string (Python `int(s)` on the validated
port string). -/
def charListToNat : List Char → Nat → Nat
  | [], acc => acc
  | c :: cs, acc => charListToNat cs (acc * 10 + (c.toNat - 48))

/-- Decimal rendering of a natural number, used for the normalized port
(`f-string` interpolation of the integer port). -/
def natToDecimal (n : Nat) : List Char :=
  (Nat.toDigits 10 n)

/-- Stable insertion of a string into a sorted list, placing equal elements
after existing ones as Python's stable `sorted` does. -/
def pyInsertSorted (x : String) : List String → List String
  | [] => [x]
  | y :: ys => if strLtB x y then x :: y :: ys else y :: pyInsertSorted x ys

/-- Python `sorted` on lists of strings (ascending code-point order; insertion
sort, which agrees with Python's stable sort). -/
def pySorted : List String → List String
  | [] => []
  | x :: xs => pyInsertSorted x (pySorted xs)

/-- Membership of a string in a list of strings by value (Python `in` on a
`set`/`dict` of strings). -/
def strListMem (l : List String) (s : String) : Bool := l.any (fun t => strEqB t s)

/-! ## SHA-256 (for canonical ids `hashlib.sha256(norm.encode()).hexdigest()`) -/

/-- Modulus for 32-bit words. -/
def M32 : Nat := 4294967296

/-- Right rotation of a 32-bit word by `n` bits. -/
def rotr32 (n x : Nat) : Nat := ((x >>> n) ||| (x <<< (32 - n))) % M32

/-- Addition of 32-bit words modulo `2 ^ 32`. -/
def addm (a b : Nat) : Nat := (a + b) % M32

/-- Bitwise complement of a 32-bit word. -/
def not32 (x : Nat) : Nat := Nat.xor x 4294967295

/-- The SHA-256 round constants. -/
def sha256K : List Nat :=
  [1116352408, 1899447441, 3049323471, 3921009573, 961987163, 1508970993,
   2453635748, 2870763221, 3624381080, 310598401, 607225278, 1426881987,
   1925078388, 2162078206, 2614888103, 3248222580, 3835390401, 4022224774,
   264347078, 604807628, 770255983, 1249150122, 1555081692, 1996064986,
   2554220882, 2821834349, 2952996808, 3210313671, 3336571891, 3584528711,
   113926993, 338241895, 666307205, 773529912, 1294757372, 1396182291,
   1695183700, 1986661051, 2177026350, 2456956037, 2730485921, 2820302411,
   3259730800, 3345764771, 3516065817, 3600352804, 4094571909, 275423344,
   430227734, 506948616, 659060556, 883997877, 958139571, 1322822218,
   1537002063, 1747873779, 1955562222, 2024104815, 2227730452, 2361852424,
   2428436474, 2756734187, 3204031479, 3329325298]

/-- The SHA-256 initial hash state. -/
def sha256H0 : List Nat :=
  [1779033703, 3144134277, 1013904242, 2773480762, 1359893119, 2600822924,
   528734635, 1541459225]

/-- UTF-8 encoding of one character (Python `str.encode()`). -/
def utf8Bytes (c : Char) : List Nat :=
  let n := c.toNat
  if n < 128 then [n]
  else if n < 2048 then [192 + n / 64, 128 + n % 64]
  else if n < 65536 then [224 + n / 4096, 128 + n / 64 % 64, 128 + n % 64]
  else [240 + n / 262144, 128 + n / 4096 % 64, 128 + n / 64 % 64, 128 + n % 64]

/-- UTF-8 encoding of a string as a byte list. -/
def strBytes (s : String) : List Nat :=
  s.data.foldr (fun c acc => utf8Bytes c ++ acc) []

/-- Big-endian 8-byte encoding of the message bit length. -/
def sha256LenBytes (bits : Nat) : List Nat :=
  [bits / 72057594037927936 % 256, bits / 281474976710656 % 256,
   bits / 1099511627776 % 256, bits / 4294967296 % 256, bits / 16777216 % 256,
   bits / 65536 % 256, bits / 256 % 256, bits % 256]

/-- SHA-256 message padding. -/
def sha256Pad (msg : List Nat) : List Nat :=
  msg ++ 128 :: List.replicate ((56 + 64 - (msg.length + 1) % 64) % 64) 0 ++
    sha256LenBytes (8 * msg.length)

/-- Big-endian packing of bytes into 32-bit words. -/
def bytesToWords : List Nat → List Nat
  | b0 :: b1 :: b2 :: b3 :: rest =>
    (b0 * 16777216 + b1 * 65536 + b2 * 256 + b3) :: bytesToWords rest
  | _ => []

/-- Splitting of a word list into 16-word blocks (structural recursion on a
fuel counter, which the wrapper sets to the list length; each step consumes at
least one element, so the fuel never runs out). -/
def chunk16F : Nat → List Nat → List (List Nat)
  | 0, _ => []
  | _, [] => []
  | f + 1, c :: cs => ((c :: cs).take 16) :: chunk16F f ((c :: cs).drop 16)

/-- Splitting of a word list into 16-word blocks. -/
def chunk16 (l : List Nat) : List (List Nat) := chunk16F l.length l

/-- The sigma-0 message-schedule function. -/
def ssig0 (x : Nat) : Nat := Nat.xor (Nat.xor (rotr32 7 x) (rotr32 18 x)) (x >>> 3)

/-- The sigma-1 message-schedule function. -/
def ssig1 (x : Nat) : Nat := Nat.xor (Nat.xor (rotr32 17 x) (rotr32 19 x)) (x >>> 10)

/-- The Sigma-0 round function. -/
def bsig0 (x : Nat) : Nat := Nat.xor (Nat.xor (rotr32 2 x) (rotr32 13 x)) (rotr32 22 x)

/-- The Sigma-1 round function. -/
def bsig1 (x : Nat) : Nat := Nat.xor (Nat.xor (rotr32 6 x) (rotr32 11 x)) (rotr32 25 x)

/-- The choice function. -/
def chB (x y z : Nat) : Nat := Nat.xor (Nat.land x y) (Nat.land (not32 x) z)

/-- The majority function. -/
def majB (x y z : Nat) : Nat :=
  Nat.xor (Nat.xor (Nat.land x y) (Nat.land x z)) (Nat.land y z)

/-- Extension of the 16-word block to the 64-word message schedule. -/
def extendW (w : List Nat) : Nat → List Nat
  | 0 => w
  | f + 1 =>
    let n := w.length
    let x := addm (addm (ssig1 (w.getD (n - 2) 0)) (w.getD (n - 7) 0))
      (addm (ssig0 (w.getD (n - 15) 0)) (w.getD (n - 16) 0))
    extendW (w ++ [x]) f

/-- One SHA-256 round, acting on the 8-word working state. -/
def sha256Round (st : List Nat) (kw : Nat × Nat) : List Nat :=
  match st with
  | [a, b, c, d, e, f, g, h] =>
    let t1 := addm h (addm (bsig1 e) (addm (chB e f g) (addm kw.1 kw.2)))
    let t2 := addm (bsig0 a) (majB a b c)
    [addm t1 t2, a, b, c, addm d t1, e, f, g]
  | other => other

/-- Compression of one 16-word block into the hash state. -/
def sha256Compress (h : List Nat) (block : List Nat) : List Nat :=
  let w := extendW block 48
  let st := (sha256K.zip w).foldl sha256Round h
  (h.zip st).map (fun p => addm p.1 p.2)

/-- The SHA-256 hash of a byte list, as eight 32-bit words. -/
def sha256Words (msg : List Nat) : List Nat :=
  (chunk16 (bytesToWords (sha256Pad msg))).foldl sha256Compress sha256H0

/-- Lower-case hexadecimal digit. -/
def hexDigit (n : Nat) : Char := Char.ofNat (if n < 10 then 48 + n else 87 + n)

/-- Eight-digit lower-case hexadecimal rendering of a 32-bit word. -/
def toHex8 (x : Nat) : List Char :=
  [hexDigit (x / 268435456 % 16), hexDigit (x / 16777216 % 16),
   hexDigit (x / 1048576 % 16), hexDigit (x / 65536 % 16),
   hexDigit (x / 4096 % 16), hexDigit (x / 256 % 16),
   hexDigit (x / 16 % 16), hexDigit (x % 16)]

/-- Python `hashlib.sha256(s.encode()).hexdigest()`. -/
def sha256hex (s : String) : String :=
  String.mk ((sha256Words (strBytes s)).foldr (fun w acc => toHex8 w ++ acc) [])

/-! ## Model of `urllib.parse.urlsplit` (CPython 3.11) and the URL properties
`hostname` and `port` used by `canonicalize` -/

/-- ASCII letter test (Python `str.isascii() and str.isalpha()` on one char). -/
def isAsciiAlpha (c : Char) : Bool :=
  (65 ≤ c.toNat && c.toNat ≤ 90) || (97 ≤ c.toNat && c.toNat ≤ 122)

/-- ASCII digit test. -/
def isAsciiDigit (c : Char) : Bool := 48 ≤ c.toNat && c.toNat ≤ 57

/-- Hexadecimal digit test. -/
def isHexChar (c : Char) : Bool :=
  isAsciiDigit c || (97 ≤ c.toNat && c.toNat ≤ 102) || (65 ≤ c.toNat && c.toNat ≤ 70)

/-- Characters allowed in a URL scheme (`urllib.parse.scheme_chars`). -/
def isSchemeChar (c : Char) : Bool :=
  isAsciiAlpha c || isAsciiDigit c || charEqB c '+' || charEqB c '-' || charEqB c '.'

/-- Number of (possibly overlapping) occurrences of a double colon. -/
def dColonCount : List Char → Nat
  | c :: d :: rest =>
    if charEqB c ':' && charEqB d ':' then 1 + dColonCount (d :: rest)
    else dColonCount (d :: rest)
  | _ => 0

/-- The part of a character list before and after the first double colon. -/
def splitAtDColon : List Char → Option (List Char × List Char)
  | c :: d :: rest =>
    if charEqB c ':' && charEqB d ':' then some ([], rest)
    else
      match splitAtDColon (d :: rest) with
      | some (l, r) => some (c :: l, r)
      | none => none
  | _ => none

/-- Validity of one dotted-quad group of an IPv4 address (`ipaddress` rejects
empty groups, more than three digits, leading zeros and values above 255). -/
def ipv4GroupOk (g : List Char) : Bool :=
  !g.isEmpty && g.length ≤ 3 && g.all isAsciiDigit &&
    charListToNat g 0 ≤ 255 &&
    !(g.length > 1 && charEqB (g.headD ' ') '0')

/-- Validity of a dotted-quad IPv4 address. -/
def ipv4Ok (cs : List Char) : Bool :=
  let gs := charListSplit '.' cs
  gs.length == 4 && gs.all ipv4GroupOk

/-- Validity of one hexadecimal group of an IPv6 address. -/
def hexGroupOk (g : List Char) : Bool :=
  !g.isEmpty && g.length ≤ 4 && g.all isHexChar

/-- Weight of one IPv6 part: a trailing embedded IPv4 address counts as two
16-bit words. -/
def ipv6PartsOk (allowTrailingV4 : Bool) (parts : List (List Char)) : Option Nat :=
  match parts with
  | [] => some 0
  | [g] =>
    if allowTrailingV4 && charMem '.' g then
      if ipv4Ok g then some 2 else none
    else if hexGroupOk g then some 1 else none
  | g :: rest =>
    if hexGroupOk g then
      match ipv6PartsOk allowTrailingV4 rest with
      | some n => some (n + 1)
      | none => none
    else none

/-- Simplified model of `ipaddress.IPv6Address` syntax validation (used by
`_check_bracketed_host`): an optional non-empty zone after a percent sign, at
most one double colon, hexadecimal 16-bit groups, an optional trailing embedded
IPv4 address, and exactly eight words (at most seven together with a double
colon). -/
def ipv6Ok (cs : List Char) : Bool :=
  let (addr, zoneOpt) :=
    match charListSplitFirst '%' cs with
    | some (a, z) => (a, some z)
    | none => (cs, none)
  let zoneOkB :=
    match zoneOpt with
    | some z => !z.isEmpty && !charMem '%' z
    | none => true
  zoneOkB &&
    match dColonCount addr with
    | 0 =>
      (match ipv6PartsOk true (charListSplit ':' addr) with
       | some n => n == 8
       | none => false)
    | 1 =>
      (match splitAtDColon addr with
       | some (l, r) =>
         let lParts := if l.isEmpty then [] else charListSplit ':' l
         let rParts := if r.isEmpty then [] else charListSplit ':' r
         (match ipv6PartsOk false lParts, ipv6PartsOk true rParts with
          | some nl, some nr => nl + nr ≤ 7
          | _, _ => false)
       | none => false)
    | _ => false

/-- Model of `urllib.parse._check_bracketed_host`: an IPvFuture literal
(`v`, hexadecimal digits, a dot, a non-empty rest) or a valid IPv6 address;
a bracketed IPv4 address is rejected.  The IPv6 syntax check is the simplified
model `ipv6Ok`. -/
def bracketedHostOk (h : List Char) : Bool :=
  match h with
  | c :: rest =>
    if charEqB c 'v' then
      let hx := rest.takeWhile isHexChar
      let tl := rest.drop hx.length
      !hx.isEmpty && charEqB (tl.headD ' ') '.' && tl.length ≥ 2
    else ipv6Ok h && !ipv4Ok h
  | [] => false

/-- Result of `urlsplit` together with the `hostname` and `port` properties
that `canonicalize` reads.  The two properties are computed eagerly here
because `canonicalize` always accesses both; an invalid port, which raises
`ValueError` at the property access in Python, therefore surfaces as an
`Except.error` of this function. -/
structure PySplit where
  scheme : String
  netloc : String
  path : String
  query : String
  fragment : String
  hostname : Option String
  port : Option Nat

/-- The `hostname` property: the host part of the netloc, lower-cased up to an
IPv6 zone separator, or `none` when empty. -/
def pyHostname (netloc : List Char) : Option String :=
  let hostinfo := charListAfterLast '@' netloc
  let hostname :=
    if charMem '[' hostinfo then
      (charListPartition ']' (charListPartition '[' hostinfo).2).1
    else (charListPartition ':' hostinfo).1
  if hostname.isEmpty then none
  else
    match charListSplitFirst '%' hostname with
    | some (pre, zone) => some (String.mk (pre.map pyCharLower ++ '%' :: zone))
    | none => some (String.mk (hostname.map pyCharLower))

/-- The port substring of the netloc, as extracted by the `_hostinfo`
property (`none` when absent or empty). -/
def pyPortStr (netloc : List Char) : Option (List Char) :=
  let hostinfo := charListAfterLast '@' netloc
  let port :=
    if charMem '[' hostinfo then
      (charListPartition ':'
        (charListPartition ']' (charListPartition '[' hostinfo).2).2).2
    else (charListPartition ':' hostinfo).2
  if port.isEmpty then none else some port

/-- The `port` property: decimal parsing and range validation of the port
substring, raising (modelled as `Except.error`) on non-digit or out-of-range
ports. -/
def pyPort (netloc : List Char) : Except String (Option Nat) :=
  match pyPortStr netloc with
  | none => .ok none
  | some p =>
    if charListAllDigits p then
      let v := charListToNat p 0
      if v ≤ 65535 then .ok (some v)
      else .error ("Port out of range 0-65535")
    else .error ("Port could not be cast to integer value")

/-- Parsing phase of `urllib.parse.urlsplit` (CPython 3.11): left-strip of
control characters and space, removal of tab, carriage return and newline,
scheme recognition, netloc extraction with bracket validation, then fragment
and query splitting.  Returns `(scheme, netloc, path, query, fragment)`.
The `_checknetloc` NFKC check only rejects certain non-ASCII netlocs and is
modelled as always passing (the embedding targets ASCII inputs). -/
def urlsplitParts (url : String) :
    Except String (List Char × List Char × List Char × List Char × List Char) :=
  let cs0 := url.data.dropWhile isC0OrSpace
  let cs := cs0.filter (fun c => !(c.toNat == 9 || c.toNat == 13 || c.toNat == 10))
  let (scheme, rest) :=
    match charListSplitFirst ':' cs with
    | some (pre, post) =>
      if !pre.isEmpty && isAsciiAlpha (cs.headD ' ') && pre.all isSchemeChar then
        (pre.map pyCharLower, post)
      else ([], cs)
    | none => ([], cs)
  let (netloc, rest2) :=
    if charListStartsWith rest ['/', '/'] then
      charListSpanUntil ['/', '?', '#'] (rest.drop 2)
    else ([], rest)
  if (charMem '[' netloc && !charMem ']' netloc) ||
      (charMem ']' netloc && !charMem '[' netloc) then
    .error ("Invalid IPv6 URL")
  else if charMem '[' netloc && charMem ']' netloc &&
      !bracketedHostOk (charListPartition ']' (charListPartition '[' netloc).2).1 then
    .error ("invalid bracketed host")
  else
    let (rest3, fragment) :=
      match charListSplitFirst '#' rest2 with
      | some (a, b) => (a, b)
      | none => (rest2, [])
    let (path, query) :=
      match charListSplitFirst '?' rest3 with
      | some (a, b) => (a, b)
      | none => (rest3, [])
    .ok (scheme, netloc, path, query, fragment)

/-- Model of `urlsplit` composed with the `hostname` and `port` property
accesses, as performed by `canonicalize` (which always reads both): an invalid
port, which raises `ValueError` at the property access in Python, surfaces as
an `Except.error` here. -/
def urlsplitE (url : String) : Except String PySplit :=
  match urlsplitParts url with
  | .error e => .error e
  | .ok (scheme, netloc, path, query, fragment) =>
    match pyPort netloc with
    | .error e => .error e
    | .ok port =>
      .ok { scheme := String.mk scheme, netloc := String.mk netloc,
            path := String.mk path, query := String.mk query,
            fragment := String.mk fragment,
            hostname := pyHostname netloc, port := port }

/-- The expression `urlparse.urlsplit(u).hostname`, which reads the `hostname`
property but not `port`: this is how both enqueue implementations extract the
host of the normalized URL for rate limiting. -/
def urlsplitHost (url : String) : Except String (Option String) :=
  match urlsplitParts url with
  | .error e => .error e
  | .ok (_, netloc, _, _, _) => .ok (pyHostname netloc)

/-- Schemes that use a netloc (`urllib.parse.uses_netloc`). -/
def usesNetloc : List String :=
  ["", "ftp", "http", "gopher", "nntp", "telnet", "imap", "wais", "file",
   "mms", "https", "shttp", "snews", "prospero", "rtsp", "rtsps", "rtspu",
   "rsync", "svn", "svn+ssh", "sftp", "nfs", "git", "git+ssh", "ws", "wss"]

/-- Model of `urllib.parse.urlunsplit` (CPython 3.11). -/
def urlunsplit (scheme netloc path query fragment : String) : String :=
  let url := path.data
  let url :=
    if !netloc.data.isEmpty ||
        (!scheme.data.isEmpty && strListMem usesNetloc scheme &&
          !charListStartsWith url ['/', '/']) then
      let url' := if !url.isEmpty && !charEqB (url.headD ' ') '/' then '/' :: url else url
      '/' :: '/' :: netloc.data ++ url'
    else url
  let url := if !scheme.data.isEmpty then scheme.data ++ ':' :: url else url
  let url := if !query.data.isEmpty then url ++ '?' :: query.data else url
  let url := if !fragment.data.isEmpty then url ++ '#' :: fragment.data else url
  String.mk url

/-! ## The canonicalizer (`canonicalize` in both crawler files) -/

/-- Tracking-parameter test: Python
`q.lower().startswith(("utm_", "gclid="))`. -/
def isTrackingParam (q : String) : Bool :=
  pyStartsWith (pyLower q) ("utm_") || pyStartsWith (pyLower q) ("gclid=")

/-- The kept, sorted query string: Python
`"&".join(sorted([q for q in u.query.split("&") if q and not q.lower().startswith(("utm_", "gclid="))]))`. -/
def normalizeQuery (query : String) : String :=
  let parts := (charListSplit '&' query.data).map String.mk
  let kept := parts.filter (fun q => !q.data.isEmpty && !isTrackingParam q)
  String.mk (charListJoin '&' ((pySorted kept).map String.data))

/-- The normalized path: Python `path = u.path or "/"` followed by
`path if path.endswith("/") or "." in path.split("/")[-1] else (path + "/")`. -/
def normalizePath (path : String) : String :=
  let p := if path.data.isEmpty then ("/" : String) else path
  if pyEndsWithChar p '/' || charMem '.' (charListAfterLast '/' p.data) then p
  else String.mk (p.data ++ ['/'])

/-- The normalized URL computed by `canonicalize` from the given (already
stripped, for the enhanced variant) raw URL: scheme defaulting and lowering,
host lowering, default-port and falsy-port dropping, path and query
normalization, reconstruction without a fragment.  Errors are the `urlsplit`
and `port` errors, which `canonicalize` does not catch (the enhanced variant
logs and re-raises; both callers catch them in `enqueue`). -/
def canonNorm (s : String) : Except String String :=
  match urlsplitE s with
  | .error e => .error e
  | .ok u =>
    let scheme := if (pyLower u.scheme).data.isEmpty then ("http" : String)
      else pyLower u.scheme
    let host :=
      match u.hostname with
      | some h => pyLower h
      | none => ("" : String)
    let portSuffix :=
      match u.port with
      | some p =>
        if p != 0 &&
            !((strEqB scheme ("http") && p == 80) ||
              (strEqB scheme ("https") && p == 443)) then
          String.mk (':' :: natToDecimal p)
        else ("" : String)
      | none => ("" : String)
    .ok (urlunsplit scheme (String.mk (host.data ++ portSuffix.data))
      (normalizePath u.path) (normalizeQuery u.query) (""))

/-- The canonical id of a normalized URL:
`f"cid:sha256:{hashlib.sha256(norm.encode()).hexdigest()}"`. -/
def makeCanonicalId (norm : String) : String := "cid:sha256:" ++ sha256hex norm

/-- `canonicalize` of `enhanced_web_crawler.py`: strips the raw URL, normalizes
it and pairs the canonical id with the normalized URL.  Exceptions escape to
the caller (the function only logs before re-raising). -/
def canonicalize (raw : String) : Except String (String × String) :=
  (canonNorm (pyStrip raw)).map (fun n => (makeCanonicalId n, n))

/-- `canonicalize` of `documented_web_crawler.py`: identical except that the
input is not stripped. -/
def canonicalizeDoc (raw : String) : Except String (String × String) :=
  (canonNorm raw).map (fun n => (makeCanonicalId n, n))

/-! ## Token buckets (rate limiters) -/

/-- `TokenBucket` of `enhanced_web_crawler.py` (with request counters). -/
structure TokenBucket where
  rate : Frac
  capacity : Nat
  tokens : Frac
  ts : Frac
  requests_made : Nat
  requests_denied : Nat

/-- `TokenBucket.__init__(rate_per_sec, burst)` at monotonic time `now`:
the bucket starts full. -/
def TokenBucket.init (rate_per_sec : Frac) (burst : Nat) (now : Frac) : TokenBucket :=
  { rate := rate_per_sec, capacity := burst, tokens := Frac.ofNat burst,
    ts := now, requests_made := 0, requests_denied := 0 }

/-- `TokenBucket.allow()` at monotonic time `now`: refill by elapsed time times
rate, capped at capacity; admit and consume one token when at least one token
is available, deny otherwise. -/
def TokenBucket.allow (b : TokenBucket) (now : Frac) : Bool × TokenBucket :=
  let tokens := Frac.min (Frac.ofNat b.capacity) (b.tokens.add ((now.sub b.ts).mul b.rate))
  if (Frac.ofNat 1).ble tokens then
    (true, { b with tokens := tokens.sub (Frac.ofNat 1), ts := now,
                    requests_made := b.requests_made + 1 })
  else
    (false, { b with tokens := tokens, ts := now,
                     requests_denied := b.requests_denied + 1 })

/-- `TokenBucket` of `documented_web_crawler.py` (no counters). -/
structure TokenBucketD where
  rate : Frac
  capacity : Nat
  tokens : Frac
  last_update : Frac

/-- `TokenBucket.__init__(rate_per_sec, burst_capacity)` of the documented
variant at monotonic time `now`. -/
def TokenBucketD.init (rate_per_sec : Frac) (burst_capacity : Nat) (now : Frac) :
    TokenBucketD :=
  { rate := rate_per_sec, capacity := burst_capacity,
    tokens := Frac.ofNat burst_capacity, last_update := now }

/-- `TokenBucket.allow_request()` of the documented variant at monotonic time
`now`. -/
def TokenBucketD.allow_request (b : TokenBucketD) (now : Frac) : Bool × TokenBucketD :=
  let tokens_to_add := (now.sub b.last_update).mul b.rate
  let tokens := Frac.min (Frac.ofNat b.capacity) (b.tokens.add tokens_to_add)
  if (Frac.ofNat 1).ble tokens then
    (true, { b with tokens := tokens.sub (Frac.ofNat 1), last_update := now })
  else
    (false, { b with tokens := tokens, last_update := now })

/-! ## Lawful comparators for the priority-queue items

Python's `@dataclass(order=True)` compares instances as tuples of their fields,
lexicographically, using each field's `==` and `<`.  The comparators below
mirror this; `Batteries.TransCmp` instances provide the transitivity and
asymmetry facts needed for the heap lemmas. -/

/-- Three-way comparison induced by a linear order. -/
def lnCmp {β : Type} [LinearOrder β] (a b : β) : Ordering :=
  if a < b then .lt else if b < a then .gt else .eq

theorem lnCmp_eq_lt {β : Type} [LinearOrder β] (a b : β) :
    lnCmp a b = .lt ↔ a < b := by
  unfold lnCmp
  split_ifs with h1 h2 <;> simp [h1]

theorem lnCmp_ne_gt {β : Type} [LinearOrder β] (a b : β) :
    lnCmp a b ≠ .gt ↔ a ≤ b := by
  unfold lnCmp
  split_ifs with h1 h2
  · simp [le_of_lt h1]
  · simp [not_le.mpr h2]
  · simp [le_of_not_lt h2]

instance {β : Type} [LinearOrder β] : Batteries.OrientedCmp (lnCmp (β := β)) where
  symm a b := by
    unfold lnCmp
    rcases lt_trichotomy a b with h | h | h
    · simp [h, lt_asymm h, Ordering.swap]
    · simp [h, lt_irrefl, Ordering.swap]
    · simp [h, lt_asymm h, Ordering.swap]

instance {β : Type} [LinearOrder β] : Batteries.TransCmp (lnCmp (β := β)) where
  le_trans h1 h2 := by
    rw [lnCmp_ne_gt] at h1 h2 ⊢
    exact le_trans h1 h2

/-- Comparison of fractions by value (Python `<` and `==` on floats decide the
tuple comparison on the score field). -/
def fracCmp (a b : Frac) : Ordering :=
  if a.blt b then .lt else if b.blt a then .gt else .eq

theorem fracCmp_eq_byKey : fracCmp = Ordering.byKey Frac.toRat lnCmp := by
  funext a b
  have h1 := Frac.blt_iff a b
  have h2 := Frac.blt_iff b a
  unfold fracCmp Ordering.byKey lnCmp
  rcases e1 : a.blt b with _ | _ <;> rcases e2 : b.blt a with _ | _ <;>
    rw [e1] at h1 <;> rw [e2] at h2 <;> simp at h1 h2
  · simp [not_lt.mpr h1, not_lt.mpr h2]
  · simp [not_lt.mpr h1, h2]
  · simp [h1]
  · simp [h1]

instance : Batteries.TransCmp fracCmp :=
  fracCmp_eq_byKey ▸
    inferInstanceAs (Batteries.TransCmp (Ordering.byKey Frac.toRat lnCmp))

/-- Code-point comparison of characters. -/
def chrCmp (a b : Char) : Ordering := lnCmp a.toNat b.toNat

instance : Batteries.TransCmp chrCmp :=
  inferInstanceAs (Batteries.TransCmp (Ordering.byKey Char.toNat lnCmp))

/-- Lexicographic comparison of lists from a comparison of elements (Python
`<`/`==` on strings, viewed as character lists). -/
def listCmp {β : Type} (c : β → β → Ordering) : List β → List β → Ordering
  | [], [] => .eq
  | [], _ :: _ => .lt
  | _ :: _, [] => .gt
  | a :: as, b :: bs => (c a b).then (listCmp c as bs)

instance {β : Type} (c : β → β → Ordering) [inst : Batteries.OrientedCmp c] :
    Batteries.OrientedCmp (listCmp c) where
  symm a b := by
    induction a generalizing b with
    | nil => cases b <;> simp [listCmp, Ordering.swap]
    | cons x xs ih =>
      cases b with
      | nil => simp [listCmp, Ordering.swap]
      | cons y ys =>
        simp only [listCmp, Ordering.swap_then]
        rw [inst.symm, ih]

instance {β : Type} (c : β → β → Ordering) [inst : Batteries.TransCmp c] :
    Batteries.TransCmp (listCmp c) where
  le_trans {x y z} h1 h2 := by
    induction x generalizing y z with
    | nil =>
      cases y with
      | nil => exact h2
      | cons b bs =>
        cases z with
        | nil => exact absurd rfl h2
        | cons => simp [listCmp]
    | cons a as ih =>
      cases y with
      | nil => exact absurd rfl h1
      | cons b bs =>
        cases z with
        | nil => exact absurd rfl h2
        | cons cc cs =>
          simp only [listCmp, ne_eq, Ordering.then_eq_gt, not_or, not_and] at h1 h2 ⊢
          constructor
          · intro hab
            rcases h1 with ⟨hab1, _⟩
            rcases h2 with ⟨hbc1, _⟩
            exact hab1 (Batteries.OrientedCmp.cmp_eq_gt.mpr
              (Batteries.TransCmp.le_lt_trans hbc1 (Batteries.OrientedCmp.cmp_eq_gt.mp hab)))
          · intro hac
            rcases h1 with ⟨hab1, hab2⟩
            rcases h2 with ⟨hbc1, hbc2⟩
            have hab' : c a b = Ordering.eq := by
              rcases e : c a b with _ | _ | _
              · exact absurd (Batteries.TransCmp.lt_le_trans e hbc1)
                  (by simp [hac])
              · rfl
              · exact absurd e hab1
            have hbc' : c b cc = Ordering.eq := by
              rcases e : c b cc with _ | _ | _
              · exact absurd (Batteries.TransCmp.le_lt_trans
                  (fun hg => hab1 hg) e) (by simp [hac])
              · rfl
              · exact absurd e hbc1
            exact ih (hab2 hab') (hbc2 hbc')

/-- Code-point comparison of strings. -/
def strCmp (a b : String) : Ordering := listCmp chrCmp a.data b.data

instance : Batteries.TransCmp strCmp :=
  inferInstanceAs (Batteries.TransCmp (Ordering.byKey String.data (listCmp chrCmp)))

/-- Comparison of natural numbers. -/
def natCmp (a b : Nat) : Ordering := lnCmp a b

instance : Batteries.TransCmp natCmp :=
  inferInstanceAs (Batteries.TransCmp (lnCmp (β := Nat)))

/-- Comparison of optional strings, ordering `none` first.  Python raises
`TypeError` when comparing `None` with a string; this comparator is only ever
applied to two `none` values, because every constructed item carries
`last_error = None`. -/
def optStrCmp : Option String → Option String → Ordering
  | none, none => .eq
  | none, some _ => .lt
  | some _, none => .gt
  | some a, some b => strCmp a b

instance : Batteries.OrientedCmp optStrCmp where
  symm a b := by
    cases a <;> cases b <;> simp [optStrCmp, Ordering.swap]
    exact Batteries.OrientedCmp.symm ..

instance : Batteries.TransCmp optStrCmp where
  le_trans {x y z} h1 h2 := by
    cases x <;> cases y <;> cases z <;>
      simp_all [optStrCmp]
    exact Batteries.TransCmp.le_trans h1 h2

/-! ## The priority-queue items -/

/-- `PQItem` of `enhanced_web_crawler.py` (an `@dataclass(order=True)`). -/
structure PQItem where
  score : Frac
  host : String
  canonical_id : String
  url : String
  depth : Nat
  retry_count : Nat
  last_error : Option String

instance : Inhabited PQItem :=
  ⟨⟨Frac.ofNat 0, "", "", "", 0, 0, none⟩⟩

/-- Tuple comparison of `PQItem`s generated by `@dataclass(order=True)`:
lexicographic over the fields in declaration order. -/
def pqItemCmp (a b : PQItem) : Ordering :=
  (fracCmp a.score b.score).then
    ((strCmp a.host b.host).then
      ((strCmp a.canonical_id b.canonical_id).then
        ((strCmp a.url b.url).then
          ((natCmp a.depth b.depth).then
            ((natCmp a.retry_count b.retry_count).then
              (optStrCmp a.last_error b.last_error))))))

instance : Batteries.TransCmp pqItemCmp :=
  inferInstanceAs (Batteries.TransCmp
    (compareLex (Ordering.byKey PQItem.score fracCmp)
      (compareLex (Ordering.byKey PQItem.host strCmp)
        (compareLex (Ordering.byKey PQItem.canonical_id strCmp)
          (compareLex (Ordering.byKey PQItem.url strCmp)
            (compareLex (Ordering.byKey PQItem.depth natCmp)
              (compareLex (Ordering.byKey PQItem.retry_count natCmp)
                (Ordering.byKey PQItem.last_error optStrCmp))))))))

/-- Python `<` on `PQItem`s. -/
def PQItem.lt (a b : PQItem) : Bool := pqItemCmp a b == Ordering.lt

/-- `CrawlItem` of `documented_web_crawler.py` (an `@dataclass(order=True)`). -/
structure CrawlItem where
  priority_score : Frac
  hostname : String
  canonical_id : String
  url : String
  depth : Nat

instance : Inhabited CrawlItem :=
  ⟨⟨Frac.ofNat 0, "", "", "", 0⟩⟩

/-- Tuple comparison of `CrawlItem`s generated by `@dataclass(order=True)`. -/
def crawlItemCmp (a b : CrawlItem) : Ordering :=
  (fracCmp a.priority_score b.priority_score).then
    ((strCmp a.hostname b.hostname).then
      ((strCmp a.canonical_id b.canonical_id).then
        ((strCmp a.url b.url).then
          (natCmp a.depth b.depth))))

instance : Batteries.TransCmp crawlItemCmp :=
  inferInstanceAs (Batteries.TransCmp
    (compareLex (Ordering.byKey CrawlItem.priority_score fracCmp)
      (compareLex (Ordering.byKey CrawlItem.hostname strCmp)
        (compareLex (Ordering.byKey CrawlItem.canonical_id strCmp)
          (compareLex (Ordering.byKey CrawlItem.url strCmp)
            (Ordering.byKey CrawlItem.depth natCmp))))))

/-- Python `<` on `CrawlItem`s. -/
def CrawlItem.lt (a b : CrawlItem) : Bool := crawlItemCmp a b == Ordering.lt

/-! ## CPython `heapq`: `heappush`, `heapify` and the sift helpers

The loops of `_siftdown` and `_siftup` are translated with an explicit fuel
argument so that they are structural recursions (and hence compute by kernel
reduction).  The wrappers pass fuel that provably never runs out: in
`_siftdown` the position strictly decreases below its initial value, and in
`_siftup` the position strictly increases while staying below the length. -/

section Heapq

variable {α : Type} [Inhabited α] (lt : α → α → Bool)

/-- The loop of `heapq._siftdown`: bubble `newitem` from `pos` towards
`startpos`, moving parents down while `newitem` compares less than them. -/
def siftdownLoop (newitem : α) : Nat → List α → Nat → Nat → List α
  | 0, heap, _, pos => heap.set pos newitem
  | fuel + 1, heap, startpos, pos =>
    if startpos < pos then
      let parentpos := (pos - 1) / 2
      let parent := heap.getD parentpos default
      if lt newitem parent then
        siftdownLoop newitem fuel (heap.set pos parent) startpos parentpos
      else heap.set pos newitem
    else heap.set pos newitem

/-- `heapq._siftdown(heap, startpos, pos)`. -/
def siftdown (heap : List α) (startpos pos : Nat) : List α :=
  siftdownLoop lt (heap.getD pos default) pos heap startpos pos

/-- `heapq.heappush(heap, item)`: append then sift down from the last index. -/
def heappush (heap : List α) (item : α) : List α :=
  siftdown lt (heap ++ [item]) 0 heap.length

/-- The loop of `heapq._siftup`: walk the hole at `pos` down to a leaf, moving
the smaller child up at each step; returns the final list and hole position. -/
def siftupLoop : Nat → List α → Nat → (List α × Nat)
  | 0, heap, pos => (heap, pos)
  | fuel + 1, heap, pos =>
    let endpos := heap.length
    let childpos := 2 * pos + 1
    if childpos < endpos then
      let rightpos := childpos + 1
      let c :=
        if rightpos < endpos &&
            !lt (heap.getD childpos default) (heap.getD rightpos default) then
          rightpos
        else childpos
      siftupLoop fuel (heap.set pos (heap.getD c default)) c
    else (heap, pos)

/-- `heapq._siftup(heap, pos)`: move the hole to a leaf, place the removed item
there and sift it back down towards `pos`. -/
def siftup (heap : List α) (pos : Nat) : List α :=
  let newitem := heap.getD pos default
  let p := siftupLoop lt heap.length heap pos
  siftdown lt (p.1.set p.2 newitem) pos p.2

/-- The loop of `heapq.heapify`: `for i in reversed(range(n//2)): _siftup(x, i)`. -/
def heapifyLoop : Nat → List α → List α
  | 0, heap => heap
  | i + 1, heap => heapifyLoop i (siftup lt heap i)

/-- `heapq.heapify(x)`. -/
def heapify (heap : List α) : List α := heapifyLoop lt (heap.length / 2) heap

end Heapq

/-! ## Association lists: the model of the per-host rate-limiter dicts -/

/-- Lookup in an association list (Python dict indexing / `.get`). -/
def alistLookup {β : Type} : List (String × β) → String → Option β
  | [], _ => none
  | (k, v) :: rest, key => if strEqB k key then some v else alistLookup rest key

/-- Key membership in an association list (Python `key in dict`). -/
def alistMem {β : Type} (l : List (String × β)) (key : String) : Bool :=
  (alistLookup l key).isSome

/-- Update of the value stored at an existing key (Python `dict[key] = v` for a
present key); appends when the key is absent. -/
def alistSet {β : Type} : List (String × β) → String → β → List (String × β)
  | [], key, v => [(key, v)]
  | (k, w) :: rest, key, v =>
    if strEqB k key then (k, v) :: rest else (k, w) :: alistSet rest key v

/-! ## The enhanced frontier service (`EnhancedFrontierService`) -/

/-- A fetch-and-parse result as consumed by the completion handlers
(`on_parsed` / `process_crawled_content`): the fields the handlers read.
`content_hash = ""` models both an absent key and an empty hash (both falsy in
the Python guards).  The `url` field is carried but never read by the
handlers. -/
structure ParsedDoc where
  url : String
  depth : Nat
  outlinks : List String
  content_hash : String

/-- State of `EnhancedFrontierService`: configuration, priority queue, seen
set, content-hash set (initialised but never consulted by any method), per-host
token buckets, and the statistics counters.  The SQLite database written by
`on_parsed` is an external collaborator and is not modelled. -/
structure EnhancedFrontierState where
  max_depth : Nat
  rate_limit : Frac
  pq : List PQItem
  seen : List String
  content_seen : List String
  tokens : List (String × TokenBucket)
  urls_enqueued : Nat
  urls_crawled : Nat
  urls_failed : Nat
  duplicates_skipped : Nat

/-- A fresh `EnhancedFrontierService` for the given configuration. -/
def EnhancedFrontierState.init (max_depth : Nat) (rate_limit : Frac) :
    EnhancedFrontierState :=
  { max_depth := max_depth, rate_limit := rate_limit, pq := [], seen := [],
    content_seen := [], tokens := [], urls_enqueued := 0, urls_crawled := 0,
    urls_failed := 0, duplicates_skipped := 0 }

/-- `EnhancedFrontierService.score(depth, freshness, host_budget)`:
`0.6 * (1.0 / (1 + depth)) + 0.25 * freshness + 0.15 * host_budget`. -/
def EnhancedFrontierState.score (depth : Nat) (freshness host_budget : Frac) : Frac :=
  (((Frac.lit 6 10).mul ((Frac.ofNat 1).div (Frac.ofNat (1 + depth)))).add
    ((Frac.lit 25 100).mul freshness)).add ((Frac.lit 15 100).mul host_budget)

/-- `EnhancedFrontierService.enqueue(url, depth)` at monotonic time `now` (the
clock is read when a token bucket is created for a new host).  The surrounding
`try`/`except` turns any canonicalization or parsing error into a `None`
return with no state change. -/
def EnhancedFrontierState.enqueue (s : EnhancedFrontierState) (url : String)
    (depth : Nat) (now : Frac) : Option PQItem × EnhancedFrontierState :=
  match canonicalize url with
  | .error _ => (none, s)
  | .ok (cid, norm) =>
    match urlsplitHost norm with
    | .error _ => (none, s)
    | .ok hostOpt =>
      let host := hostOpt.getD ("")
      if depth > s.max_depth || strListMem s.seen cid then
        if strListMem s.seen cid then
          (none, { s with duplicates_skipped := s.duplicates_skipped + 1 })
        else (none, s)
      else
        let sc := EnhancedFrontierState.score depth (Frac.ofNat 1) (Frac.ofNat 1)
        let item : PQItem :=
          { score := (Frac.ofNat 1).sub sc, host := host, canonical_id := cid,
            url := norm, depth := depth, retry_count := 0, last_error := none }
        let tokens' :=
          if alistMem s.tokens host then s.tokens
          else s.tokens ++ [(host, TokenBucket.init s.rate_limit 1 now)]
        (some item,
          { s with seen := cid :: s.seen, pq := heappush PQItem.lt s.pq item,
                   tokens := tokens',
                   urls_enqueued := s.urls_enqueued + 1 })

/-- The scan of `EnhancedFrontierService.lease`: iterate over the queue in
array order; for each item whose host has a bucket, call `allow()` (which
mutates the bucket even on denial); stop at the first admitted item.  The
second component is the updated bucket map; the third is ghost instrumentation
recording each `allow()` call as `(host, verdict)` — it does not influence the
computation. -/
def leaseScanE : List PQItem → Nat → List (String × TokenBucket) → Frac →
    Option (Nat × PQItem) × List (String × TokenBucket) × List (String × Bool)
  | [], _, tokens, _ => (none, tokens, [])
  | item :: rest, i, tokens, now =>
    match alistLookup tokens item.host with
    | some b =>
      let r := b.allow now
      let tokens' := alistSet tokens item.host r.2
      if r.1 then (some (i, item), tokens', [(item.host, true)])
      else
        let k := leaseScanE rest (i + 1) tokens' now
        (k.1, k.2.1, (item.host, false) :: k.2.2)
    | none => leaseScanE rest (i + 1) tokens now

/-- `EnhancedFrontierService.lease()` at monotonic time `now`: remove and
return the first item (in heap-array order) whose host's bucket admits;
`self.pq.pop(i)` followed by `heapq.heapify(self.pq)`. -/
def EnhancedFrontierState.lease (s : EnhancedFrontierState) (now : Frac) :
    Option PQItem × EnhancedFrontierState :=
  let r := leaseScanE s.pq 0 s.tokens now
  match r.1 with
  | some (i, item) =>
    (some item,
      { s with pq := heapify PQItem.lt (s.pq.eraseIdx i), tokens := r.2.1 })
  | none => (none, { s with tokens := r.2.1 })

/-- `EnhancedFrontierService.on_parsed(doc)` at monotonic time `now`: enqueue
every outlink at `depth + 1` and count the crawl.  The content-hash set
`content_seen` is not consulted; the database save is external. -/
def EnhancedFrontierState.on_parsed (s : EnhancedFrontierState) (doc : ParsedDoc)
    (now : Frac) : EnhancedFrontierState :=
  let s' := doc.outlinks.foldl
    (fun st link => (st.enqueue link (doc.depth + 1) now).2) s
  { s' with urls_crawled := s'.urls_crawled + 1 }

/-- One frontier operation, for quantifying over operation sequences. -/
inductive FOp where
  | enq (url : String) (depth : Nat) (now : Frac)
  | lease (now : Frac)
  | parsed (doc : ParsedDoc) (now : Frac)

/-- One step of the enhanced frontier service. -/
def EnhancedFrontierState.step (s : EnhancedFrontierState) : FOp → EnhancedFrontierState
  | .enq url depth now => (s.enqueue url depth now).2
  | .lease now => (s.lease now).2
  | .parsed doc now => s.on_parsed doc now

/-- A run of the enhanced frontier service. -/
def runE (s : EnhancedFrontierState) (ops : List FOp) : EnhancedFrontierState :=
  ops.foldl EnhancedFrontierState.step s

/-- A run that also records, in order, the item returned by every successful
lease and every `allow()` verdict (the ghost component of `leaseScanE`). -/
def runTraceE (s : EnhancedFrontierState) :
    List FOp → EnhancedFrontierState × List PQItem × List (String × Bool)
  | [] => (s, [], [])
  | op :: ops =>
    match op with
    | .lease now =>
      let r := leaseScanE s.pq 0 s.tokens now
      let k := runTraceE (s.lease now).2 ops
      (k.1, (match r.1 with
             | some (_, item) => item :: k.2.1
             | none => k.2.1), r.2.2 ++ k.2.2)
    | _ =>
      runTraceE (s.step op) ops

/-! ## The documented frontier service (`FrontierService`) -/

/-- State of `FrontierService` of `documented_web_crawler.py`. -/
structure FrontierState where
  max_depth : Nat
  default_rate_limit : Frac
  crawl_queue : List CrawlItem
  seen_urls : List String
  content_hashes : List String
  rate_limiters : List (String × TokenBucketD)
  urls_enqueued : Nat
  urls_crawled : Nat
  urls_deduplicated : Nat
  rate_limited : Nat

/-- `FrontierService.__init__(max_depth, default_rate_limit)`. -/
def FrontierState.init (max_depth : Nat) (default_rate_limit : Frac) : FrontierState :=
  { max_depth := max_depth, default_rate_limit := default_rate_limit,
    crawl_queue := [], seen_urls := [], content_hashes := [],
    rate_limiters := [], urls_enqueued := 0, urls_crawled := 0,
    urls_deduplicated := 0, rate_limited := 0 }

/-- `FrontierService.calculate_priority_score(depth, freshness,
host_importance)`: the weighted combination, inverted for the min-heap. -/
def FrontierState.calculate_priority_score (depth : Nat)
    (freshness host_importance : Frac) : Frac :=
  let depth_score := (Frac.ofNat 1).div (Frac.ofNat 1 |>.add (Frac.ofNat depth))
  let combined_score :=
    (((Frac.lit 6 10).mul depth_score).add
      ((Frac.lit 25 100).mul freshness)).add
      ((Frac.lit 15 100).mul host_importance)
  (Frac.ofNat 1).sub combined_score

/-- `FrontierService.enqueue_url(url, depth, freshness)` at monotonic time
`now`.  The `try`/`except` turns canonicalization errors into a `None` return
with no state change; the depth check precedes the duplicate check, which
precedes the seen-set insertion. -/
def FrontierState.enqueue_url (s : FrontierState) (url : String) (depth : Nat)
    (freshness : Frac) (now : Frac) : Option CrawlItem × FrontierState :=
  match canonicalizeDoc url with
  | .error _ => (none, s)
  | .ok (cid, norm) =>
    match urlsplitHost norm with
    | .error _ => (none, s)
    | .ok hostOpt =>
      let hostname := hostOpt.getD ("unknown")
      if depth > s.max_depth then (none, s)
      else if strListMem s.seen_urls cid then
        (none, { s with urls_deduplicated := s.urls_deduplicated + 1 })
      else
        let priority_score :=
          FrontierState.calculate_priority_score depth freshness (Frac.ofNat 1)
        let item : CrawlItem :=
          { priority_score := priority_score, hostname := hostname,
            canonical_id := cid, url := norm, depth := depth }
        let limiters' :=
          if alistMem s.rate_limiters hostname then s.rate_limiters
          else s.rate_limiters ++
            [(hostname, TokenBucketD.init s.default_rate_limit 1 now)]
        (some item,
          { s with seen_urls := cid :: s.seen_urls,
                   crawl_queue := heappush CrawlItem.lt s.crawl_queue item,
                   rate_limiters := limiters',
                   urls_enqueued := s.urls_enqueued + 1 })

/-- The scan of `FrontierService.get_next_crawl_item`: like `leaseScanE`, with
`rate_limiters.get(item.hostname)` instead of a membership test (same
behaviour).  The third component is the ghost `allow_request()` trace. -/
def leaseScanD : List CrawlItem → Nat → List (String × TokenBucketD) → Frac →
    Option (Nat × CrawlItem) × List (String × TokenBucketD) × List (String × Bool)
  | [], _, limiters, _ => (none, limiters, [])
  | item :: rest, i, limiters, now =>
    match alistLookup limiters item.hostname with
    | some b =>
      let r := b.allow_request now
      let limiters' := alistSet limiters item.hostname r.2
      if r.1 then (some (i, item), limiters', [(item.hostname, true)])
      else
        let k := leaseScanD rest (i + 1) limiters' now
        (k.1, k.2.1, (item.hostname, false) :: k.2.2)
    | none => leaseScanD rest (i + 1) limiters now

/-- `FrontierService.get_next_crawl_item()` at monotonic time `now`:
`self.crawl_queue.pop(i)` followed by `heapq.heapify`; when every queued item
is rate limited and the queue is non-empty, the `rate_limited` counter is
incremented. -/
def FrontierState.get_next_crawl_item (s : FrontierState) (now : Frac) :
    Option CrawlItem × FrontierState :=
  let r := leaseScanD s.crawl_queue 0 s.rate_limiters now
  match r.1 with
  | some (i, item) =>
    (some item,
      { s with crawl_queue := heapify CrawlItem.lt (s.crawl_queue.eraseIdx i),
               rate_limiters := r.2.1 })
  | none =>
    (none,
      { s with rate_limiters := r.2.1,
               rate_limited :=
                 if s.crawl_queue.isEmpty then s.rate_limited
                 else s.rate_limited + 1 })

/-- `FrontierService.process_crawled_content(crawl_result)` at monotonic time
`now`: when the content hash is non-empty and already recorded, the result is
discarded (early return, no other state change); otherwise the hash (when
non-empty) is recorded, every outlink is enqueued at `depth + 1` with the
default freshness, and the crawl is counted. -/
def FrontierState.process_crawled_content (s : FrontierState) (doc : ParsedDoc)
    (now : Frac) : FrontierState :=
  if !doc.content_hash.data.isEmpty && strListMem s.content_hashes doc.content_hash then
    s
  else
    let s1 :=
      if !doc.content_hash.data.isEmpty then
        { s with content_hashes := doc.content_hash :: s.content_hashes }
      else s
    let s2 := doc.outlinks.foldl
      (fun st link => (st.enqueue_url link (doc.depth + 1) (Frac.ofNat 1) now).2) s1
    { s2 with urls_crawled := s2.urls_crawled + 1 }

/-! ## Basic lemmas about the string and association-list primitives -/

theorem charEqB_iff (a b : Char) : charEqB a b = true ↔ a = b := by
  simp [charEqB]

theorem charListEq_iff (a b : List Char) : charListEq a b = true ↔ a = b := by
  induction a generalizing b with
  | nil => cases b <;> simp [charListEq]
  | cons x xs ih =>
    cases b with
    | nil => simp [charListEq]
    | cons y ys => simp [charListEq, charEqB_iff, ih]

theorem strEqB_iff (a b : String) : strEqB a b = true ↔ a = b := by
  rw [strEqB, charListEq_iff]
  exact ⟨fun h => by cases a; cases b; exact congrArg String.mk (by simpa using h),
    fun h => by rw [h]⟩

theorem strEqB_refl (a : String) : strEqB a a = true := (strEqB_iff a a).mpr rfl

theorem strEqB_eq_decide (a b : String) : strEqB a b = decide (a = b) := by
  by_cases h : a = b
  · simp [h, strEqB_refl]
  · have hne : strEqB a b ≠ true := fun hc => h ((strEqB_iff a b).mp hc)
    simp [h, Bool.eq_false_iff.mpr hne]

theorem strListMem_iff (l : List String) (s : String) :
    strListMem l s = true ↔ s ∈ l := by
  induction l with
  | nil => simp [strListMem]
  | cons x xs ih =>
    rw [strListMem] at ih ⊢
    simp only [List.any_cons, Bool.or_eq_true, strEqB_iff]
    rw [ih, List.mem_cons]
    constructor
    · rintro (h | h)
      exacts [Or.inl h.symm, Or.inr h]
    · rintro (h | h)
      exacts [Or.inl h.symm, Or.inr h]

theorem strListMem_false_iff (l : List String) (s : String) :
    strListMem l s = false ↔ s ∉ l := by
  rw [← strListMem_iff]
  cases strListMem l s <;> simp

theorem alistLookup_set {β : Type} (l : List (String × β)) (k k2 : String) (v : β) :
    alistLookup (alistSet l k v) k2 =
      if k = k2 then some v else alistLookup l k2 := by
  induction l with
  | nil => simp [alistSet, alistLookup, strEqB_eq_decide]
  | cons p rest ih =>
    rcases p with ⟨pk, pv⟩
    simp only [alistSet, alistLookup, strEqB_eq_decide]
    by_cases h1 : pk = k <;> by_cases h2 : pk = k2 <;> by_cases h3 : k = k2 <;>
      simp_all [alistLookup, strEqB_eq_decide]

theorem alistMem_set {β : Type} (l : List (String × β)) (k k2 : String) (v : β)
    (h : alistMem l k2 = true) : alistMem (alistSet l k v) k2 = true := by
  rw [alistMem, alistLookup_set]
  by_cases h3 : k = k2 <;> simp_all [alistMem]

theorem alistMem_append_right {β : Type} (l : List (String × β)) (k : String) (v : β) :
    alistMem (l ++ [(k, v)]) k = true := by
  induction l with
  | nil => simp [alistMem, alistLookup, strEqB_refl]
  | cons p rest ih =>
    rcases p with ⟨pk, pv⟩
    by_cases h : strEqB pk k <;> simp_all [alistMem, alistLookup]

theorem alistMem_append_mono {β : Type} (l : List (String × β)) (k k2 : String)
    (v : β) (h : alistMem l k2 = true) : alistMem (l ++ [(k, v)]) k2 = true := by
  induction l with
  | nil => simp_all [alistMem, alistLookup]
  | cons p rest ih =>
    rcases p with ⟨pk, pv⟩
    by_cases h2 : strEqB pk k2 <;> simp_all [alistMem, alistLookup]

/-! ## Rational-level description of the token buckets -/

theorem Frac.toRat_one : (Frac.ofNat 1).toRat = 1 := by
  rw [Frac.toRat_ofNat]
  norm_num

/-- The refilled token count, capped at capacity, as a rational number. -/
def refillQ (cap : Nat) (tokens ts rate now : ℚ) : ℚ :=
  Min.min (cap : ℚ) (tokens + (now - ts) * rate)

theorem TokenBucket.refill_toRat (b : TokenBucket) (now : Frac) :
    (Frac.min (Frac.ofNat b.capacity) (b.tokens.add ((now.sub b.ts).mul b.rate))).toRat =
      refillQ b.capacity b.tokens.toRat b.ts.toRat b.rate.toRat now.toRat := by
  rw [Frac.toRat_min, Frac.toRat_add, Frac.toRat_mul, Frac.toRat_sub,
    Frac.toRat_ofNat, refillQ]

theorem TokenBucket.allow_fst_eq (b : TokenBucket) (now : Frac) :
    (b.allow now).1 =
      decide (1 ≤ refillQ b.capacity b.tokens.toRat b.ts.toRat b.rate.toRat now.toRat) := by
  rw [TokenBucket.allow]
  by_cases h : (Frac.ofNat 1).ble
      (Frac.min (Frac.ofNat b.capacity) (b.tokens.add ((now.sub b.ts).mul b.rate))) = true
  · have := (Frac.ble_iff _ _).mp h
    rw [Frac.toRat_one, TokenBucket.refill_toRat] at this
    simp [h, this]
  · have : ¬ (1 : ℚ) ≤ refillQ b.capacity b.tokens.toRat b.ts.toRat b.rate.toRat now.toRat := by
      intro hc
      exact h ((Frac.ble_iff _ _).mpr (by rw [Frac.toRat_one, TokenBucket.refill_toRat]; exact hc))
    simp only [Bool.not_eq_true] at h
    simp [h, this]

theorem TokenBucket.allow_snd_fields (b : TokenBucket) (now : Frac) :
    (b.allow now).2.ts = now ∧ (b.allow now).2.capacity = b.capacity ∧
    (b.allow now).2.rate = b.rate ∧
    (b.allow now).2.tokens.toRat =
      (if 1 ≤ refillQ b.capacity b.tokens.toRat b.ts.toRat b.rate.toRat now.toRat then
        refillQ b.capacity b.tokens.toRat b.ts.toRat b.rate.toRat now.toRat - 1
       else refillQ b.capacity b.tokens.toRat b.ts.toRat b.rate.toRat now.toRat) := by
  rw [TokenBucket.allow]
  by_cases h : (Frac.ofNat 1).ble
      (Frac.min (Frac.ofNat b.capacity) (b.tokens.add ((now.sub b.ts).mul b.rate))) = true
  · have hq := (Frac.ble_iff _ _).mp h
    rw [Frac.toRat_one, TokenBucket.refill_toRat] at hq
    simp [h, hq, Frac.toRat_sub, Frac.toRat_one, TokenBucket.refill_toRat]
  · have hq : ¬ (1 : ℚ) ≤ refillQ b.capacity b.tokens.toRat b.ts.toRat b.rate.toRat now.toRat := by
      intro hc
      exact h ((Frac.ble_iff _ _).mpr (by rw [Frac.toRat_one, TokenBucket.refill_toRat]; exact hc))
    simp only [Bool.not_eq_true] at h
    simp [h, hq, TokenBucket.refill_toRat]

theorem TokenBucketD.refillD_toRat (b : TokenBucketD) (now : Frac) :
    (Frac.min (Frac.ofNat b.capacity) (b.tokens.add ((now.sub b.last_update).mul b.rate))).toRat =
      refillQ b.capacity b.tokens.toRat b.last_update.toRat b.rate.toRat now.toRat := by
  rw [Frac.toRat_min, Frac.toRat_add, Frac.toRat_mul, Frac.toRat_sub,
    Frac.toRat_ofNat, refillQ]

theorem TokenBucketD.allow_request_fst_eq (b : TokenBucketD) (now : Frac) :
    (b.allow_request now).1 =
      decide (1 ≤ refillQ b.capacity b.tokens.toRat b.last_update.toRat b.rate.toRat now.toRat) := by
  rw [TokenBucketD.allow_request]
  by_cases h : (Frac.ofNat 1).ble
      (Frac.min (Frac.ofNat b.capacity) (b.tokens.add ((now.sub b.last_update).mul b.rate))) = true
  · have := (Frac.ble_iff _ _).mp h
    rw [Frac.toRat_one, TokenBucketD.refillD_toRat] at this
    simp [h, this]
  · have : ¬ (1 : ℚ) ≤ refillQ b.capacity b.tokens.toRat b.last_update.toRat b.rate.toRat now.toRat := by
      intro hc
      exact h ((Frac.ble_iff _ _).mpr (by rw [Frac.toRat_one, TokenBucketD.refillD_toRat]; exact hc))
    simp only [Bool.not_eq_true] at h
    simp [h, this]

theorem TokenBucketD.allow_request_snd_fields (b : TokenBucketD) (now : Frac) :
    (b.allow_request now).2.last_update = now ∧
    (b.allow_request now).2.capacity = b.capacity ∧
    (b.allow_request now).2.rate = b.rate ∧
    (b.allow_request now).2.tokens.toRat =
      (if 1 ≤ refillQ b.capacity b.tokens.toRat b.last_update.toRat b.rate.toRat now.toRat then
        refillQ b.capacity b.tokens.toRat b.last_update.toRat b.rate.toRat now.toRat - 1
       else refillQ b.capacity b.tokens.toRat b.last_update.toRat b.rate.toRat now.toRat) := by
  rw [TokenBucketD.allow_request]
  by_cases h : (Frac.ofNat 1).ble
      (Frac.min (Frac.ofNat b.capacity) (b.tokens.add ((now.sub b.last_update).mul b.rate))) = true
  · have hq := (Frac.ble_iff _ _).mp h
    rw [Frac.toRat_one, TokenBucketD.refillD_toRat] at hq
    simp [h, hq, Frac.toRat_sub, Frac.toRat_one, TokenBucketD.refillD_toRat]
  · have hq : ¬ (1 : ℚ) ≤ refillQ b.capacity b.tokens.toRat b.last_update.toRat b.rate.toRat now.toRat := by
      intro hc
      exact h ((Frac.ble_iff _ _).mpr (by rw [Frac.toRat_one, TokenBucketD.refillD_toRat]; exact hc))
    simp only [Bool.not_eq_true] at h
    simp [h, hq, TokenBucketD.refillD_toRat]

theorem TokenBucket.allow_true_of (b : TokenBucket) (now : Frac)
    (h : 1 ≤ refillQ b.capacity b.tokens.toRat b.ts.toRat b.rate.toRat now.toRat) :
    (b.allow now).1 = true := by
  rw [TokenBucket.allow_fst_eq]
  exact decide_eq_true h

theorem TokenBucket.allow_false_of (b : TokenBucket) (now : Frac)
    (h : ¬ 1 ≤ refillQ b.capacity b.tokens.toRat b.ts.toRat b.rate.toRat now.toRat) :
    (b.allow now).1 = false := by
  rw [TokenBucket.allow_fst_eq]
  exact decide_eq_false h

theorem TokenBucketD.allow_request_true_of (b : TokenBucketD) (now : Frac)
    (h : 1 ≤ refillQ b.capacity b.tokens.toRat b.last_update.toRat b.rate.toRat now.toRat) :
    (b.allow_request now).1 = true := by
  rw [TokenBucketD.allow_request_fst_eq]
  exact decide_eq_true h

theorem TokenBucketD.allow_request_false_of (b : TokenBucketD) (now : Frac)
    (h : ¬ 1 ≤ refillQ b.capacity b.tokens.toRat b.last_update.toRat b.rate.toRat now.toRat) :
    (b.allow_request now).1 = false := by
  rw [TokenBucketD.allow_request_fst_eq]
  exact decide_eq_false h

/-- C7: a token bucket created with `ratePerSecond = 1` and `capacity = 1`
starts with `tokens = capacity`; its first `allow()` returns `true`; an
`allow()` immediately after (zero elapsed monotonic time) returns `false`; and
an `allow()` after at least one further second of elapsed time returns `true`
again.  Proven for both `TokenBucket.allow` (enhanced crawler) and the
documented crawler variant `allow_request` (`TokenBucketD` here). -/
theorem C7_token_bucket_admits_then_denies (t0 dt : Frac)
    (hdt : (Frac.ofNat 1).ble dt = true) :
    (TokenBucket.init (Frac.ofNat 1) 1 t0).tokens =
      Frac.ofNat (TokenBucket.init (Frac.ofNat 1) 1 t0).capacity ∧
    ((TokenBucket.init (Frac.ofNat 1) 1 t0).allow t0).1 = true ∧
    (((TokenBucket.init (Frac.ofNat 1) 1 t0).allow t0).2.allow t0).1 = false ∧
    ((((TokenBucket.init (Frac.ofNat 1) 1 t0).allow t0).2.allow t0).2.allow
      (t0.add dt)).1 = true ∧
    (TokenBucketD.init (Frac.ofNat 1) 1 t0).tokens =
      Frac.ofNat (TokenBucketD.init (Frac.ofNat 1) 1 t0).capacity ∧
    ((TokenBucketD.init (Frac.ofNat 1) 1 t0).allow_request t0).1 = true ∧
    (((TokenBucketD.init (Frac.ofNat 1) 1 t0).allow_request t0).2.allow_request t0).1 = false ∧
    ((((TokenBucketD.init (Frac.ofNat 1) 1 t0).allow_request t0).2.allow_request t0).2.allow_request
      (t0.add dt)).1 = true := by
  rw [Frac.ble_iff, Frac.toRat_one] at hdt
  have hr1 : refillQ 1 1 t0.toRat 1 t0.toRat = 1 := by
    unfold refillQ
    norm_num
  have hr2 : refillQ 1 0 t0.toRat 1 t0.toRat = 0 := by
    unfold refillQ
    norm_num
  have hr3 : refillQ 1 0 t0.toRat 1 (t0.add dt).toRat = 1 := by
    unfold refillQ
    rw [Frac.toRat_add]
    rw [show t0.toRat + dt.toRat - t0.toRat = dt.toRat by ring]
    norm_num
    exact hdt
  have c0 : (TokenBucket.init (Frac.ofNat 1) 1 t0).capacity = 1 := rfl
  have tk0 : (TokenBucket.init (Frac.ofNat 1) 1 t0).tokens = Frac.ofNat 1 := rfl
  have ts0 : (TokenBucket.init (Frac.ofNat 1) 1 t0).ts = t0 := rfl
  have ra0 : (TokenBucket.init (Frac.ofNat 1) 1 t0).rate = Frac.ofNat 1 := rfl
  have d0 : (TokenBucketD.init (Frac.ofNat 1) 1 t0).capacity = 1 := rfl
  have dtk0 : (TokenBucketD.init (Frac.ofNat 1) 1 t0).tokens = Frac.ofNat 1 := rfl
  have dts0 : (TokenBucketD.init (Frac.ofNat 1) 1 t0).last_update = t0 := rfl
  have dra0 : (TokenBucketD.init (Frac.ofNat 1) 1 t0).rate = Frac.ofNat 1 := rfl
  refine ⟨rfl, ?_, ?_, ?_, rfl, ?_, ?_, ?_⟩
  · apply TokenBucket.allow_true_of
    rw [c0, tk0, ts0, ra0, Frac.toRat_one, hr1]
  · obtain ⟨hts, hcap, hrate, htok⟩ :=
      TokenBucket.allow_snd_fields (TokenBucket.init (Frac.ofNat 1) 1 t0) t0
    rw [c0] at hcap
    rw [ra0] at hrate
    rw [c0, tk0, ts0, ra0, Frac.toRat_one, hr1] at htok
    norm_num at htok
    have hrt : ((TokenBucket.init (Frac.ofNat 1) 1 t0).allow t0).2.rate.toRat = 1 := by
      rw [hrate, Frac.toRat_one]
    apply TokenBucket.allow_false_of
    rw [hcap, hts, htok, hrt, hr2]
    norm_num
  · obtain ⟨hts, hcap, hrate, htok⟩ :=
      TokenBucket.allow_snd_fields (TokenBucket.init (Frac.ofNat 1) 1 t0) t0
    rw [c0] at hcap
    rw [ra0] at hrate
    rw [c0, tk0, ts0, ra0, Frac.toRat_one, hr1] at htok
    norm_num at htok
    have hrt : ((TokenBucket.init (Frac.ofNat 1) 1 t0).allow t0).2.rate.toRat = 1 := by
      rw [hrate, Frac.toRat_one]
    obtain ⟨hts2, hcap2, hrate2, htok2⟩ :=
      TokenBucket.allow_snd_fields ((TokenBucket.init (Frac.ofNat 1) 1 t0).allow t0).2 t0
    rw [hcap, hts, htok, hrt, hr2] at htok2
    norm_num at htok2
    rw [hcap] at hcap2
    have hrt2 : (((TokenBucket.init (Frac.ofNat 1) 1 t0).allow t0).2.allow t0).2.rate.toRat = 1 := by
      rw [hrate2]
      exact hrt
    apply TokenBucket.allow_true_of
    rw [hcap2, hts2, htok2, hrt2, hr3]
  · apply TokenBucketD.allow_request_true_of
    rw [d0, dtk0, dts0, dra0, Frac.toRat_one, hr1]
  · obtain ⟨hts, hcap, hrate, htok⟩ :=
      TokenBucketD.allow_request_snd_fields (TokenBucketD.init (Frac.ofNat 1) 1 t0) t0
    rw [d0] at hcap
    rw [dra0] at hrate
    rw [d0, dtk0, dts0, dra0, Frac.toRat_one, hr1] at htok
    norm_num at htok
    have hrt : ((TokenBucketD.init (Frac.ofNat 1) 1 t0).allow_request t0).2.rate.toRat = 1 := by
      rw [hrate, Frac.toRat_one]
    apply TokenBucketD.allow_request_false_of
    rw [hcap, hts, htok, hrt, hr2]
    norm_num
  · obtain ⟨hts, hcap, hrate, htok⟩ :=
      TokenBucketD.allow_request_snd_fields (TokenBucketD.init (Frac.ofNat 1) 1 t0) t0
    rw [d0] at hcap
    rw [dra0] at hrate
    rw [d0, dtk0, dts0, dra0, Frac.toRat_one, hr1] at htok
    norm_num at htok
    have hrt : ((TokenBucketD.init (Frac.ofNat 1) 1 t0).allow_request t0).2.rate.toRat = 1 := by
      rw [hrate, Frac.toRat_one]
    obtain ⟨hts2, hcap2, hrate2, htok2⟩ :=
      TokenBucketD.allow_request_snd_fields
        ((TokenBucketD.init (Frac.ofNat 1) 1 t0).allow_request t0).2 t0
    rw [hcap, hts, htok, hrt, hr2] at htok2
    norm_num at htok2
    rw [hcap] at hcap2
    have hrt2 :
        (((TokenBucketD.init (Frac.ofNat 1) 1 t0).allow_request t0).2.allow_request t0).2.rate.toRat = 1 := by
      rw [hrate2]
      exact hrt
    apply TokenBucketD.allow_request_true_of
    rw [hcap2, hts2, htok2, hrt2, hr3]

/-- C7 witness: the theorem instantiated at `t0 = 0` and `dt = 1`. -/
theorem C7_witness :
    ((((TokenBucket.init (Frac.ofNat 1) 1 (Frac.ofNat 0)).allow (Frac.ofNat 0)).2.allow
        (Frac.ofNat 0)).2.allow ((Frac.ofNat 0).add (Frac.ofNat 1))).1 = true ∧
    ((((TokenBucketD.init (Frac.ofNat 1) 1 (Frac.ofNat 0)).allow_request
        (Frac.ofNat 0)).2.allow_request (Frac.ofNat 0)).2.allow_request
        ((Frac.ofNat 0).add (Frac.ofNat 1))).1 = true :=
  ⟨(C7_token_bucket_admits_then_denies (Frac.ofNat 0) (Frac.ofNat 1) (by decide)).2.1.symm ▸
      (C7_token_bucket_admits_then_denies (Frac.ofNat 0) (Frac.ofNat 1) (by decide)).2.2.2.1,
   (C7_token_bucket_admits_then_denies (Frac.ofNat 0) (Frac.ofNat 1) (by decide)).2.2.2.2.2.2.2⟩

/-- C1 counterexample: the claim asserts that
`canonicalize("HTTPS://Example.COM:443/path?utm_source=x&id=123")` normalizes
to exactly `"https://example.com/path?id=123"`.  It does not: the
canonicalizer appends a trailing slash to the extensionless path `/path`
(`path if path.endswith("/") or "." in path.split("/")[-1] else path + "/"`),
so the normalized URL is `"https://example.com/path/?id=123"`. -/
theorem C1_counterexample :
    ¬ ((canonicalize ("HTTPS://Example.COM:443/path?utm_source=x&id=123")).map
        Prod.snd = Except.ok ("https://example.com/path?id=123")) := by
  intro h
  rw [show (canonicalize ("HTTPS://Example.COM:443/path?utm_source=x&id=123")).map
      Prod.snd = Except.ok ("https://example.com/path/?id=123") from rfl] at h
  have h2 := Except.ok.inj h
  exact absurd h2 (by decide)

/-- C1 amended: the two raw URLs
`"HTTPS://Example.COM:443/path?utm_source=x&id=123"` and
`"https://example.com/path?id=123"` canonicalize to the same canonical id and
the same normalized URL, namely `"https://example.com/path/?id=123"` (with the
trailing slash the canonicalizer adds to extensionless paths) — scheme and
host lower-cased, default port 443 dropped, `utm_source` removed, and the
remaining query kept. -/
theorem C1_amended :
    canonicalize ("HTTPS://Example.COM:443/path?utm_source=x&id=123") =
      Except.ok (makeCanonicalId ("https://example.com/path/?id=123"),
        "https://example.com/path/?id=123") ∧
    canonicalize ("https://example.com/path?id=123") =
      Except.ok (makeCanonicalId ("https://example.com/path/?id=123"),
        "https://example.com/path/?id=123") :=
  ⟨rfl, rfl⟩

/-- C8: `canonicalize` fails exactly when its input cannot be parsed (in the
embedding: when the `urlsplit` model, together with the `hostname`/`port`
property accesses that `canonicalize` performs, fails — a malformed bracketed
host or an invalid port); for every parseable input it succeeds; and for every
failing input the enclosing enqueue (both implementations) fails closed,
returning a rejection and leaving the state unchanged. -/
theorem C8_malformed_url_fail_closed (raw : String) :
    ((canonicalize raw).isOk ↔ (urlsplitE (pyStrip raw)).isOk) ∧
    ((canonicalizeDoc raw).isOk ↔ (urlsplitE raw).isOk) ∧
    (∀ (e : String) (s : EnhancedFrontierState) (depth : Nat) (now : Frac),
      canonicalize raw = .error e → s.enqueue raw depth now = (none, s)) ∧
    (∀ (e : String) (s : FrontierState) (depth : Nat) (f now : Frac),
      canonicalizeDoc raw = .error e →
        s.enqueue_url raw depth f now = (none, s)) := by
  refine ⟨?_, ?_, ?_, ?_⟩
  · rw [canonicalize]
    cases h : urlsplitE (pyStrip raw) with
    | error e =>
      simp only [canonNorm, h]
      rfl
    | ok u =>
      simp only [canonNorm, h]
      rfl
  · rw [canonicalizeDoc]
    cases h : urlsplitE raw with
    | error e =>
      simp only [canonNorm, h]
      rfl
    | ok u =>
      simp only [canonNorm, h]
      rfl
  · intro e s depth now hc
    simp [EnhancedFrontierState.enqueue, hc]
  · intro e s depth f now hc
    simp [FrontierState.enqueue_url, hc]

/-- C8 witness: the raw URL `"http://example.com:notaport/"` cannot be parsed
(its port is not an integer); `canonicalize` fails on it and the enhanced
enqueue rejects it without mutating a fresh frontier state. -/
theorem C8_witness :
    (EnhancedFrontierState.init 3 (Frac.ofNat 1)).enqueue
        ("http://example.com:notaport/") 0 (Frac.ofNat 0) =
      (none, EnhancedFrontierState.init 3 (Frac.ofNat 1)) :=
  (C8_malformed_url_fail_closed ("http://example.com:notaport/")).2.2.1
    ("Port could not be cast to integer value")
    (EnhancedFrontierState.init 3 (Frac.ofNat 1)) 0 (Frac.ofNat 0) rfl

/-! ## Behaviour of `enqueue` in its three outcomes, and seen-set monotonicity -/

theorem enqueue_success (s : EnhancedFrontierState) (url : String) (d : Nat)
    (now : Frac) (cid norm : String) (hostOpt : Option String)
    (hc : canonicalize url = .ok (cid, norm))
    (hh : urlsplitHost norm = .ok hostOpt)
    (hd : d ≤ s.max_depth)
    (hfresh : strListMem s.seen cid = false) :
    (s.enqueue url d now).1.isSome = true ∧
    (s.enqueue url d now).2.seen = cid :: s.seen := by
  have hgt : decide (d > s.max_depth) = false := decide_eq_false (not_lt.mpr hd)
  simp [EnhancedFrontierState.enqueue, hc, hh, hgt, hfresh]

theorem enqueue_dup_reject (s : EnhancedFrontierState) (url : String) (d : Nat)
    (now : Frac) (cid norm : String)
    (hc : canonicalize url = .ok (cid, norm))
    (hseen : strListMem s.seen cid = true) :
    (s.enqueue url d now).1 = none := by
  simp only [EnhancedFrontierState.enqueue, hc]
  cases hh : urlsplitHost norm with
  | error e => rfl
  | ok hostOpt => simp [hseen]

theorem enqueue_seen_shape (s : EnhancedFrontierState) (url : String) (d : Nat)
    (now : Frac) :
    (s.enqueue url d now).2.seen = s.seen ∨
    ∃ c, (s.enqueue url d now).2.seen = c :: s.seen := by
  cases hc : canonicalize url with
  | error e => exact Or.inl (by simp [EnhancedFrontierState.enqueue, hc])
  | ok p =>
    rcases p with ⟨cid, norm⟩
    cases hh : urlsplitHost norm with
    | error e => exact Or.inl (by simp [EnhancedFrontierState.enqueue, hc, hh])
    | ok hostOpt =>
      by_cases h1 : (decide (d > s.max_depth) || strListMem s.seen cid) = true
      · by_cases h2 : strListMem s.seen cid = true
        · exact Or.inl (by simp [EnhancedFrontierState.enqueue, hc, hh, h1, h2])
        · simp only [Bool.not_eq_true] at h2
          have hd : s.max_depth < d := by
            rw [h2, Bool.or_false] at h1
            exact of_decide_eq_true h1
          exact Or.inl (by simp [EnhancedFrontierState.enqueue, hc, hh, h1, h2, hd])
      · simp only [Bool.not_eq_true] at h1
        exact Or.inr ⟨cid, by simp [EnhancedFrontierState.enqueue, hc, hh, h1]⟩

theorem enqueue_seen_mono (s : EnhancedFrontierState) (url : String) (d : Nat)
    (now : Frac) (c : String) (h : strListMem s.seen c = true) :
    strListMem (s.enqueue url d now).2.seen c = true := by
  rcases enqueue_seen_shape s url d now with hs | ⟨c2, hs⟩
  · rw [hs]
    exact h
  · rw [hs]
    rw [strListMem_iff] at h ⊢
    exact List.mem_cons_of_mem c2 h

theorem lease_seen_eq (s : EnhancedFrontierState) (now : Frac) :
    (s.lease now).2.seen = s.seen := by
  rw [EnhancedFrontierState.lease]
  rcases h : (leaseScanE s.pq 0 s.tokens now).1 with _ | ⟨i, item⟩ <;> simp [h]

theorem on_parsed_seen_mono (s : EnhancedFrontierState) (doc : ParsedDoc)
    (now : Frac) (c : String) (h : strListMem s.seen c = true) :
    strListMem (s.on_parsed doc now).seen c = true := by
  rw [EnhancedFrontierState.on_parsed]
  rcases doc with ⟨u, dep, links, ch⟩
  simp only
  induction links generalizing s with
  | nil => exact h
  | cons l ls ih =>
    simp only [List.foldl_cons]
    exact ih _ (enqueue_seen_mono _ _ _ _ _ h)

theorem step_seen_mono (s : EnhancedFrontierState) (op : FOp) (c : String)
    (h : strListMem s.seen c = true) : strListMem (s.step op).seen c = true := by
  cases op with
  | enq url d now => exact enqueue_seen_mono s url d now c h
  | lease now => rw [EnhancedFrontierState.step, lease_seen_eq]; exact h
  | parsed doc now => exact on_parsed_seen_mono s doc now c h

theorem runE_seen_mono (s : EnhancedFrontierState) (ops : List FOp) (c : String)
    (h : strListMem s.seen c = true) : strListMem (runE s ops).seen c = true := by
  induction ops generalizing s with
  | nil => exact h
  | cons op ops ih => exact ih _ (step_seen_mono s op c h)

/-- C6: enqueue of a well-formed URL whose canonical id is not yet seen, at a
depth exceeding `maxDepth`, returns a rejection and leaves the whole state —
in particular the seen set — unchanged; the same URL can then be enqueued
successfully at any depth within the limit. -/
theorem C6_depth_rejection (s : EnhancedFrontierState) (url : String) (d : Nat)
    (now : Frac) (cid norm : String)
    (hc : canonicalize url = .ok (cid, norm))
    (hfresh : strListMem s.seen cid = false)
    (hd : s.max_depth < d) :
    s.enqueue url d now = (none, s) ∧
    (∀ (d2 : Nat) (now2 : Frac) (hostOpt : Option String),
      urlsplitHost norm = .ok hostOpt → d2 ≤ s.max_depth →
        ((s.enqueue url d now).2.enqueue url d2 now2).1.isSome = true) := by
  have hgt : decide (d > s.max_depth) = true := decide_eq_true hd
  have h1 : s.enqueue url d now = (none, s) := by
    simp only [EnhancedFrontierState.enqueue, hc]
    cases hh : urlsplitHost norm with
    | error e => rfl
    | ok hostOpt => simp [hgt, hfresh]
  refine ⟨h1, fun d2 now2 hostOpt hh hd2 => ?_⟩
  rw [h1]
  exact (enqueue_success s url d2 now2 cid norm hostOpt hc hh hd2 hfresh).1

/-- C6 witness: a fresh frontier with `maxDepth = 3` rejects
`"http://a.example/"` at depth 5 without change, then accepts it at depth 0. -/
theorem C6_witness :
    (EnhancedFrontierState.init 3 (Frac.ofNat 1)).enqueue ("http://a.example/") 5
        (Frac.ofNat 0) =
      (none, EnhancedFrontierState.init 3 (Frac.ofNat 1)) ∧
    (((EnhancedFrontierState.init 3 (Frac.ofNat 1)).enqueue ("http://a.example/") 5
        (Frac.ofNat 0)).2.enqueue ("http://a.example/") 0 (Frac.ofNat 0)).1.isSome = true := by
  have h := C6_depth_rejection (EnhancedFrontierState.init 3 (Frac.ofNat 1))
    ("http://a.example/") 5 (Frac.ofNat 0)
    (makeCanonicalId ("http://a.example/")) ("http://a.example/") rfl rfl (by decide)
  exact ⟨h.1, h.2 0 (Frac.ofNat 0) (some ("a.example")) rfl (by decide)⟩

/-- C5: for a sequence of enqueues whose URLs all share one canonical id `c`,
at depths within the limit, the first call succeeds and every later call —
after any interleaved frontier operations whatsoever — is rejected: the seen
set is mutated by the first success and only ever grows, so the duplicate
rejection is permanent for the lifetime of the frontier. -/
theorem C5_dedup_permanent (s : EnhancedFrontierState) (url1 : String) (d1 : Nat)
    (now1 : Frac) (c n1 : String) (h1 : Option String)
    (hc1 : canonicalize url1 = .ok (c, n1))
    (hh1 : urlsplitHost n1 = .ok h1)
    (hd1 : d1 ≤ s.max_depth)
    (hfresh : strListMem s.seen c = false) :
    (s.enqueue url1 d1 now1).1.isSome = true ∧
    (∀ (ops : List FOp) (url2 : String) (d2 : Nat) (now2 : Frac) (n2 : String),
      canonicalize url2 = .ok (c, n2) →
        ((runE (s.enqueue url1 d1 now1).2 ops).enqueue url2 d2 now2).1 = none) := by
  obtain ⟨hs, hseen⟩ := enqueue_success s url1 d1 now1 c n1 h1 hc1 hh1 hd1 hfresh
  refine ⟨hs, fun ops url2 d2 now2 n2 hc2 => ?_⟩
  have hmem : strListMem (s.enqueue url1 d1 now1).2.seen c = true := by
    rw [hseen, strListMem_iff]
    exact List.mem_cons_self c s.seen
  exact enqueue_dup_reject _ url2 d2 now2 c n2 hc2 (runE_seen_mono _ ops c hmem)

/-- C5 witness: on a fresh frontier, the first enqueue of
`"http://a.example/"` succeeds and an immediate second enqueue of the same URL
is rejected. -/
theorem C5_witness :
    ((EnhancedFrontierState.init 3 (Frac.ofNat 1)).enqueue ("http://a.example/") 0
      (Frac.ofNat 0)).1.isSome = true ∧
    ((runE ((EnhancedFrontierState.init 3 (Frac.ofNat 1)).enqueue
        ("http://a.example/") 0 (Frac.ofNat 0)).2 []).enqueue ("http://a.example/")
        1 (Frac.ofNat 0)).1 = none := by
  have h := C5_dedup_permanent (EnhancedFrontierState.init 3 (Frac.ofNat 1))
    ("http://a.example/") 0 (Frac.ofNat 0)
    (makeCanonicalId ("http://a.example/")) ("http://a.example/")
    (some ("a.example")) rfl rfl (by decide) rfl
  exact ⟨h.1, h.2 [] ("http://a.example/") 1 (Frac.ofNat 0) ("http://a.example/") rfl⟩

/-! ## Content-hash deduplication -/

theorem enqueue_url_content_hashes (s : FrontierState) (url : String) (d : Nat)
    (f now : Frac) :
    (s.enqueue_url url d f now).2.content_hashes = s.content_hashes := by
  cases hc : canonicalizeDoc url with
  | error e => simp [FrontierState.enqueue_url, hc]
  | ok p =>
    rcases p with ⟨cid, norm⟩
    cases hh : urlsplitHost norm with
    | error e => simp [FrontierState.enqueue_url, hc, hh]
    | ok hostOpt =>
      by_cases h1 : d > s.max_depth
      · simp [FrontierState.enqueue_url, hc, hh, h1]
      · by_cases h2 : strListMem s.seen_urls cid = true <;>
          simp [FrontierState.enqueue_url, hc, hh, h1, h2]

theorem foldl_enqueue_url_content_hashes (links : List String) (s : FrontierState)
    (dep : Nat) (f now : Frac) :
    (links.foldl (fun st link => (st.enqueue_url link dep f now).2) s).content_hashes =
      s.content_hashes := by
  induction links generalizing s with
  | nil => rfl
  | cons l ls ih => rw [List.foldl_cons, ih, enqueue_url_content_hashes]

/-- C4 counterexample: the claim covers `on_parsed` of the enhanced crawler,
but `on_parsed` performs no content-hash check at all (the `content_seen` set
is initialised and never read).  Concretely: after a completion call with
content hash `"h"` for one URL, a second completion call with the same
non-empty hash `"h"` for a different URL still enqueues its outlink — the
queue grows from empty to one item instead of staying unchanged. -/
theorem C4_counterexample :
    (((EnhancedFrontierState.init 3 (Frac.ofNat 1)).on_parsed
        ⟨"http://u1.example/", 0, [], "h"⟩ (Frac.ofNat 0)).on_parsed
        ⟨"http://u2.example/", 0, ["http://b.example/"], "h"⟩ (Frac.ofNat 0)).pq ≠ [] := by
  intro h
  have h1 : ((((EnhancedFrontierState.init 3 (Frac.ofNat 1)).on_parsed
      ⟨"http://u1.example/", 0, [], "h"⟩ (Frac.ofNat 0)).on_parsed
      ⟨"http://u2.example/", 0, ["http://b.example/"], "h"⟩ (Frac.ofNat 0)).pq).length = 0 := by
    rw [h]
    rfl
  rw [show ((((EnhancedFrontierState.init 3 (Frac.ofNat 1)).on_parsed
      ⟨"http://u1.example/", 0, [], "h"⟩ (Frac.ofNat 0)).on_parsed
      ⟨"http://u2.example/", 0, ["http://b.example/"], "h"⟩ (Frac.ofNat 0)).pq).length = 1
    from rfl] at h1
  exact absurd h1 (by decide)

/-- C4 amended: the content-hash suppression holds for
`process_crawled_content` of the documented crawler — a completion call whose
non-empty `contentHash` is already recorded returns with the state unchanged
(in particular none of its outlinks is enqueued, whatever its URL), and any
completion call with a non-empty hash records that hash, so the second of two
calls carrying the same non-empty hash discards its result — but it does not
hold for `on_parsed` of the enhanced crawler, which never consults its
content-hash set. -/
theorem C4_amended_content_dedup (s : FrontierState) (doc : ParsedDoc) (now : Frac)
    (h1 : doc.content_hash.data.isEmpty = false)
    (h2 : strListMem s.content_hashes doc.content_hash = true) :
    s.process_crawled_content doc now = s ∧
    (∀ (t : FrontierState) (d : ParsedDoc) (now2 : Frac),
      d.content_hash.data.isEmpty = false →
        strListMem (t.process_crawled_content d now2).content_hashes
          d.content_hash = true) := by
  constructor
  · simp [FrontierState.process_crawled_content, h1, h2]
  · intro t d now2 hd
    by_cases hm : strListMem t.content_hashes d.content_hash = true
    · simp [FrontierState.process_crawled_content, hd, hm]
    · simp only [Bool.not_eq_true] at hm
      simp only [FrontierState.process_crawled_content, hd, hm, Bool.not_false,
        Bool.true_and, Bool.false_eq_true, if_false]
      rw [foldl_enqueue_url_content_hashes]
      simp only [hd, Bool.not_false, Bool.false_eq_true, if_true]
      rw [strListMem_iff]
      exact List.mem_cons_self _ _

/-- C4 witness for the amended theorem: a frontier that has already recorded
hash `"h"` is unchanged by a completion result carrying hash `"h"` and an
outlink, whatever its URL. -/
theorem C4_witness :
    ({ FrontierState.init 4 (Frac.ofNat 1) with content_hashes := ["h"] } :
        FrontierState).process_crawled_content
      ⟨"http://u2.example/", 0, ["http://b.example/"], "h"⟩ (Frac.ofNat 0) =
    { FrontierState.init 4 (Frac.ofNat 1) with content_hashes := ["h"] } :=
  (C4_amended_content_dedup
    ({ FrontierState.init 4 (Frac.ofNat 1) with content_hashes := ["h"] })
    ⟨"http://u2.example/", 0, ["http://b.example/"], "h"⟩ (Frac.ofNat 0)
    rfl rfl).1

/-! ## Stepping lemmas for the lease scans -/

theorem leaseScanE_cons_allow (item : PQItem) (rest : List PQItem) (i : Nat)
    (tokens : List (String × TokenBucket)) (now : Frac) (b : TokenBucket)
    (hb : alistLookup tokens item.host = some b)
    (ha : (b.allow now).1 = true) :
    leaseScanE (item :: rest) i tokens now =
      (some (i, item), alistSet tokens item.host (b.allow now).2,
        [(item.host, true)]) := by
  simp [leaseScanE, hb, ha]

theorem leaseScanE_cons_deny (item : PQItem) (rest : List PQItem) (i : Nat)
    (tokens : List (String × TokenBucket)) (now : Frac) (b : TokenBucket)
    (hb : alistLookup tokens item.host = some b)
    (ha : (b.allow now).1 = false) :
    leaseScanE (item :: rest) i tokens now =
      ((leaseScanE rest (i + 1) (alistSet tokens item.host (b.allow now).2) now).1,
       (leaseScanE rest (i + 1) (alistSet tokens item.host (b.allow now).2) now).2.1,
       (item.host, false) ::
         (leaseScanE rest (i + 1) (alistSet tokens item.host (b.allow now).2) now).2.2) := by
  simp [leaseScanE, hb, ha]

theorem leaseScanE_cons_missing (item : PQItem) (rest : List PQItem) (i : Nat)
    (tokens : List (String × TokenBucket)) (now : Frac)
    (hb : alistLookup tokens item.host = none) :
    leaseScanE (item :: rest) i tokens now = leaseScanE rest (i + 1) tokens now := by
  simp [leaseScanE, hb]

theorem leaseScanD_cons_allow (item : CrawlItem) (rest : List CrawlItem) (i : Nat)
    (limiters : List (String × TokenBucketD)) (now : Frac) (b : TokenBucketD)
    (hb : alistLookup limiters item.hostname = some b)
    (ha : (b.allow_request now).1 = true) :
    leaseScanD (item :: rest) i limiters now =
      (some (i, item), alistSet limiters item.hostname (b.allow_request now).2,
        [(item.hostname, true)]) := by
  simp [leaseScanD, hb, ha]

theorem leaseScanD_cons_deny (item : CrawlItem) (rest : List CrawlItem) (i : Nat)
    (limiters : List (String × TokenBucketD)) (now : Frac) (b : TokenBucketD)
    (hb : alistLookup limiters item.hostname = some b)
    (ha : (b.allow_request now).1 = false) :
    leaseScanD (item :: rest) i limiters now =
      ((leaseScanD rest (i + 1) (alistSet limiters item.hostname (b.allow_request now).2) now).1,
       (leaseScanD rest (i + 1) (alistSet limiters item.hostname (b.allow_request now).2) now).2.1,
       (item.hostname, false) ::
         (leaseScanD rest (i + 1) (alistSet limiters item.hostname (b.allow_request now).2) now).2.2) := by
  simp [leaseScanD, hb, ha]

theorem heapify_singleton {α : Type} [Inhabited α] (lt : α → α → Bool) (a : α) :
    heapify lt [a] = [a] := by
  show heapifyLoop lt ([a].length / 2) [a] = [a]
  rw [show ([a] : List α).length / 2 = 0 by norm_num]
  rfl

/-! ## The C3 scenario -/

/-- Item A of the C3 scenario: priority score `0.1`, host `x.example`. -/
def c3ItemA : PQItem :=
  ⟨Frac.lit 1 10, "x.example", "cid-a", "http://x.example/a", 1, 0, none⟩

/-- Item B of the C3 scenario: priority score `0.5`, host `y.example`. -/
def c3ItemB : PQItem :=
  ⟨Frac.lit 5 10, "y.example", "cid-b", "http://y.example/", 1, 0, none⟩

/-- The C3 frontier state (enhanced service): queue `[A, B]`, host `x.example`
with `tx` tokens (fewer than one), host `y.example` with a full bucket. -/
def c3StateE (tx now : Frac) : EnhancedFrontierState :=
  { EnhancedFrontierState.init 3 (Frac.ofNat 1) with
    pq := [c3ItemA, c3ItemB],
    tokens := [("x.example", ⟨Frac.ofNat 1, 1, tx, now, 0, 0⟩),
               ("y.example", ⟨Frac.ofNat 1, 1, Frac.ofNat 1, now, 0, 0⟩)] }

/-- Item A of the C3 scenario for the documented service. -/
def c3ItemAD : CrawlItem := ⟨Frac.lit 1 10, "x.example", "cid-a", "http://x.example/a", 1⟩

/-- Item B of the C3 scenario for the documented service. -/
def c3ItemBD : CrawlItem := ⟨Frac.lit 5 10, "y.example", "cid-b", "http://y.example/", 1⟩

/-- The C3 frontier state for the documented service. -/
def c3StateD (tx now : Frac) : FrontierState :=
  { FrontierState.init 4 (Frac.ofNat 1) with
    crawl_queue := [c3ItemAD, c3ItemBD],
    rate_limiters := [("x.example", ⟨Frac.ofNat 1, 1, tx, now⟩),
                      ("y.example", ⟨Frac.ofNat 1, 1, Frac.ofNat 1, now⟩)] }

/-- C3: with the queue holding exactly item A (score 0.1, host X whose bucket
has fewer than one token) and item B (score 0.5, host Y whose bucket is full),
`lease()` returns item B and removes it from the queue — a denied
higher-priority item does not starve an admissible lower-priority one.
Proven for both `EnhancedFrontierService.lease` and
`FrontierService.get_next_crawl_item`. -/
theorem C3_scan_past_blocked_host (tx now : Frac)
    (hx : tx.blt (Frac.ofNat 1) = true) :
    ((c3StateE tx now).lease now).1 = some c3ItemB ∧
    ((c3StateE tx now).lease now).2.pq = [c3ItemA] ∧
    ((c3StateD tx now).get_next_crawl_item now).1 = some c3ItemBD ∧
    ((c3StateD tx now).get_next_crawl_item now).2.crawl_queue = [c3ItemAD] := by
  rw [Frac.blt_iff, Frac.toRat_one] at hx
  have hax : ((⟨Frac.ofNat 1, 1, tx, now, 0, 0⟩ : TokenBucket).allow now).1 = false := by
    apply TokenBucket.allow_false_of
    show ¬ (1 : ℚ) ≤ refillQ 1 tx.toRat now.toRat (Frac.ofNat 1).toRat now.toRat
    rw [Frac.toRat_one]
    unfold refillQ
    rw [sub_self, zero_mul, add_zero]
    intro hc
    exact absurd (le_trans hc (min_le_right _ _)) (not_le.mpr hx)
  have hay : ((⟨Frac.ofNat 1, 1, Frac.ofNat 1, now, 0, 0⟩ : TokenBucket).allow now).1 = true := by
    apply TokenBucket.allow_true_of
    show (1 : ℚ) ≤ refillQ 1 (Frac.ofNat 1).toRat now.toRat (Frac.ofNat 1).toRat now.toRat
    rw [Frac.toRat_one]
    unfold refillQ
    norm_num
  have haxD : ((⟨Frac.ofNat 1, 1, tx, now⟩ : TokenBucketD).allow_request now).1 = false := by
    apply TokenBucketD.allow_request_false_of
    show ¬ (1 : ℚ) ≤ refillQ 1 tx.toRat now.toRat (Frac.ofNat 1).toRat now.toRat
    rw [Frac.toRat_one]
    unfold refillQ
    rw [sub_self, zero_mul, add_zero]
    intro hc
    exact absurd (le_trans hc (min_le_right _ _)) (not_le.mpr hx)
  have hayD : ((⟨Frac.ofNat 1, 1, Frac.ofNat 1, now⟩ : TokenBucketD).allow_request now).1 = true := by
    apply TokenBucketD.allow_request_true_of
    show (1 : ℚ) ≤ refillQ 1 (Frac.ofNat 1).toRat now.toRat (Frac.ofNat 1).toRat now.toRat
    rw [Frac.toRat_one]
    unfold refillQ
    norm_num
  have hb1 : alistLookup (c3StateE tx now).tokens c3ItemA.host =
      some ⟨Frac.ofNat 1, 1, tx, now, 0, 0⟩ := rfl
  have hstep1 := leaseScanE_cons_deny c3ItemA [c3ItemB] 0 (c3StateE tx now).tokens now
    ⟨Frac.ofNat 1, 1, tx, now, 0, 0⟩ hb1 hax
  have hb2 : alistLookup (alistSet (c3StateE tx now).tokens c3ItemA.host
      ((⟨Frac.ofNat 1, 1, tx, now, 0, 0⟩ : TokenBucket).allow now).2) c3ItemB.host =
      some ⟨Frac.ofNat 1, 1, Frac.ofNat 1, now, 0, 0⟩ := by
    rw [alistLookup_set, if_neg (by decide)]
    rfl
  have hstep2 := leaseScanE_cons_allow c3ItemB [] 1 _ now
    ⟨Frac.ofNat 1, 1, Frac.ofNat 1, now, 0, 0⟩ hb2 hay
  have hscan1 : (leaseScanE (c3StateE tx now).pq 0 (c3StateE tx now).tokens now).1 =
      some (1, c3ItemB) := by
    show (leaseScanE (c3ItemA :: [c3ItemB]) 0 (c3StateE tx now).tokens now).1 = _
    rw [hstep1, hstep2]
  have hb1D : alistLookup (c3StateD tx now).rate_limiters c3ItemAD.hostname =
      some ⟨Frac.ofNat 1, 1, tx, now⟩ := rfl
  have hstep1D := leaseScanD_cons_deny c3ItemAD [c3ItemBD] 0
    (c3StateD tx now).rate_limiters now ⟨Frac.ofNat 1, 1, tx, now⟩ hb1D haxD
  have hb2D : alistLookup (alistSet (c3StateD tx now).rate_limiters c3ItemAD.hostname
      ((⟨Frac.ofNat 1, 1, tx, now⟩ : TokenBucketD).allow_request now).2) c3ItemBD.hostname =
      some ⟨Frac.ofNat 1, 1, Frac.ofNat 1, now⟩ := by
    rw [alistLookup_set, if_neg (by decide)]
    rfl
  have hstep2D := leaseScanD_cons_allow c3ItemBD [] 1 _ now
    ⟨Frac.ofNat 1, 1, Frac.ofNat 1, now⟩ hb2D hayD
  have hscan1D : (leaseScanD (c3StateD tx now).crawl_queue 0
      (c3StateD tx now).rate_limiters now).1 = some (1, c3ItemBD) := by
    show (leaseScanD (c3ItemAD :: [c3ItemBD]) 0 (c3StateD tx now).rate_limiters now).1 = _
    rw [hstep1D, hstep2D]
  refine ⟨?_, ?_, ?_, ?_⟩
  · simp [EnhancedFrontierState.lease, hscan1]
  · simp only [EnhancedFrontierState.lease, hscan1]
    rw [show (c3StateE tx now).pq.eraseIdx 1 = [c3ItemA] from rfl]
    exact heapify_singleton PQItem.lt c3ItemA
  · simp [FrontierState.get_next_crawl_item, hscan1D]
  · simp only [FrontierState.get_next_crawl_item, hscan1D]
    rw [show (c3StateD tx now).crawl_queue.eraseIdx 1 = [c3ItemAD] from rfl]
    exact heapify_singleton CrawlItem.lt c3ItemAD

/-- C3 witness: the theorem instantiated with an empty X bucket (`tx = 0`) at
time zero. -/
theorem C3_witness :
    ((c3StateE (Frac.ofNat 0) (Frac.ofNat 0)).lease (Frac.ofNat 0)).1 = some c3ItemB ∧
    ((c3StateD (Frac.ofNat 0) (Frac.ofNat 0)).get_next_crawl_item (Frac.ofNat 0)).1 =
      some c3ItemBD :=
  ⟨(C3_scan_past_blocked_host (Frac.ofNat 0) (Frac.ofNat 0) (by decide)).1,
   (C3_scan_past_blocked_host (Frac.ofNat 0) (Frac.ofNat 0) (by decide)).2.2.1⟩

/-! ## Permutation facts about the heapq model

The heap operations only move existing elements around (`_siftdown` and
`_siftup` shuffle entries by `set`), so each operation's result is a
permutation of the obvious specification list.  These facts let the queue
invariants (no duplicate canonical ids, every host has a bucket) pass through
`heappush`/`heapify` untouched. -/

theorem getD_set_ne {α : Type} (l : List α) (i j : Nat) (a d : α) (h : i ≠ j) :
    (l.set i a).getD j d = l.getD j d := by
  induction l generalizing i j with
  | nil => simp
  | cons x xs ih =>
    cases i with
    | zero =>
      cases j with
      | zero => exact absurd rfl h
      | succ j2 => simp [List.set]
    | succ i2 =>
      cases j with
      | zero => simp [List.set]
      | succ j2 =>
        simp only [List.set, List.getD_cons_succ]
        exact ih i2 j2 (fun hc => h (by rw [hc]))

theorem set_getD_self {α : Type} (l : List α) (i : Nat) (d : α)
    (h : i < l.length) : l.set i (l.getD i d) = l := by
  induction l generalizing i with
  | nil => simp at h
  | cons x xs ih =>
    cases i with
    | zero => simp
    | succ i2 =>
      simp only [List.getD_cons_succ, List.set]
      rw [ih i2 (by simpa using h)]

theorem cons_set_perm {α : Type} (l : List α) (i : Nat) (a d : α)
    (h : i < l.length) : (l.getD i d :: l.set i a).Perm (a :: l) := by
  induction l generalizing i with
  | nil => simp at h
  | cons x xs ih =>
    cases i with
    | zero => simpa using List.Perm.swap a x xs
    | succ i2 =>
      have h2 : i2 < xs.length := by simpa using h
      have e1 : (x :: xs).getD (i2 + 1) d :: (x :: xs).set (i2 + 1) a
          = xs.getD i2 d :: x :: xs.set i2 a := by simp [List.set]
      rw [e1]
      exact ((List.Perm.swap x (xs.getD i2 d) (xs.set i2 a)).trans
        (List.Perm.cons x (ih i2 h2))).trans (List.Perm.swap a x xs)

theorem set_getD_set_perm {α : Type} (l : List α) (i j : Nat) (a d : α)
    (hij : i ≠ j) (hi : i < l.length) (hj : j < l.length) :
    ((l.set i (l.getD j d)).set j a).Perm (l.set i a) := by
  have hmj : j < (l.set i (l.getD j d)).length := by
    rw [List.length_set]; exact hj
  have hgd : (l.set i (l.getD j d)).getD j d = l.getD j d :=
    getD_set_ne l i j (l.getD j d) d hij
  have p1 := cons_set_perm (l.set i (l.getD j d)) j a d hmj
  rw [hgd] at p1
  have q1 : (l.getD i d :: l.set i (l.getD j d)).Perm (l.getD j d :: l) :=
    cons_set_perm l i (l.getD j d) d hi
  have q2 : (l.getD i d :: l.set i a).Perm (a :: l) :=
    cons_set_perm l i a d hi
  have chain : (l.getD i d :: l.getD j d :: l.set i a).Perm
      (l.getD i d :: a :: l.set i (l.getD j d)) :=
    ((((List.Perm.swap (l.getD j d) (l.getD i d) (l.set i a)).trans
      (List.Perm.cons (l.getD j d) q2)).trans
      (List.Perm.swap a (l.getD j d) l)).trans
      (List.Perm.cons a q1.symm)).trans
      (List.Perm.swap (l.getD i d) a (l.set i (l.getD j d)))
  have key : (l.getD j d :: l.set i a).Perm (a :: l.set i (l.getD j d)) :=
    List.Perm.cons_inv chain
  exact List.Perm.cons_inv (p1.trans key.symm)

theorem siftdownLoop_perm {α : Type} [Inhabited α] (lt : α → α → Bool)
    (newitem : α) (fuel : Nat) :
    ∀ (heap : List α) (startpos pos : Nat), pos < heap.length →
      (siftdownLoop lt newitem fuel heap startpos pos).Perm (heap.set pos newitem) := by
  induction fuel with
  | zero => intro heap startpos pos h; exact List.Perm.refl _
  | succ f ih =>
    intro heap startpos pos h
    rw [siftdownLoop]
    by_cases h1 : startpos < pos
    · rw [if_pos h1]
      by_cases h2 : lt newitem (heap.getD ((pos - 1) / 2) default) = true
      · simp only [h2, if_true]
        have hpos : 0 < pos := Nat.lt_of_le_of_lt (Nat.zero_le startpos) h1
        have hpp : (pos - 1) / 2 < pos :=
          Nat.lt_of_le_of_lt (Nat.div_le_self (pos - 1) 2)
            (Nat.sub_lt hpos Nat.one_pos)
        have hpl : (pos - 1) / 2 < heap.length := Nat.lt_trans hpp h
        have hlen : (pos - 1) / 2 <
            (heap.set pos (heap.getD ((pos - 1) / 2) default)).length := by
          rw [List.length_set]; exact hpl
        exact (ih (heap.set pos (heap.getD ((pos - 1) / 2) default)) startpos
            ((pos - 1) / 2) hlen).trans
          (set_getD_set_perm heap pos ((pos - 1) / 2) newitem default
            (Nat.ne_of_gt hpp) h hpl)
      · simp only [h2, if_false]
        exact List.Perm.refl _
    · rw [if_neg h1]

theorem siftdown_perm {α : Type} [Inhabited α] (lt : α → α → Bool)
    (heap : List α) (startpos pos : Nat) (h : pos < heap.length) :
    (siftdown lt heap startpos pos).Perm heap := by
  rw [siftdown]
  refine (siftdownLoop_perm lt (heap.getD pos default) pos heap startpos pos h).trans ?_
  rw [set_getD_self heap pos default h]

theorem heappush_perm {α : Type} [Inhabited α] (lt : α → α → Bool)
    (heap : List α) (item : α) : (heappush lt heap item).Perm (item :: heap) := by
  rw [heappush]
  have h : heap.length < (heap ++ [item]).length := by simp
  exact (siftdown_perm lt (heap ++ [item]) 0 heap.length h).trans
    (List.perm_append_singleton item heap)

theorem siftupLoop_succ {α : Type} [Inhabited α] (lt : α → α → Bool)
    (f : Nat) (heap : List α) (pos : Nat) :
    siftupLoop lt (f + 1) heap pos =
      if 2 * pos + 1 < heap.length then
        siftupLoop lt f
          (heap.set pos (heap.getD
            (if 2 * pos + 1 + 1 < heap.length &&
                !lt (heap.getD (2 * pos + 1) default)
                  (heap.getD (2 * pos + 1 + 1) default) then
              2 * pos + 1 + 1
            else 2 * pos + 1) default))
          (if 2 * pos + 1 + 1 < heap.length &&
              !lt (heap.getD (2 * pos + 1) default)
                (heap.getD (2 * pos + 1 + 1) default) then
            2 * pos + 1 + 1
          else 2 * pos + 1)
      else (heap, pos) := rfl

theorem siftupLoop_inv {α : Type} [Inhabited α] (lt : α → α → Bool) (fuel : Nat) :
    ∀ (heap : List α) (pos : Nat), pos < heap.length →
      (siftupLoop lt fuel heap pos).2 < (siftupLoop lt fuel heap pos).1.length ∧
      (siftupLoop lt fuel heap pos).1.length = heap.length ∧
      ∀ x, ((siftupLoop lt fuel heap pos).1.set (siftupLoop lt fuel heap pos).2 x).Perm
        (heap.set pos x) := by
  induction fuel with
  | zero =>
    intro heap pos h
    exact ⟨h, rfl, fun x => List.Perm.refl _⟩
  | succ f ih =>
    intro heap pos h
    rw [siftupLoop_succ]
    by_cases hcc : 2 * pos + 1 < heap.length
    · rw [if_pos hcc]
      have step : ∀ c2 : Nat, pos < c2 → c2 < heap.length →
          (siftupLoop lt f (heap.set pos (heap.getD c2 default)) c2).2 <
            (siftupLoop lt f (heap.set pos (heap.getD c2 default)) c2).1.length ∧
          (siftupLoop lt f (heap.set pos (heap.getD c2 default)) c2).1.length =
            heap.length ∧
          ∀ x, ((siftupLoop lt f (heap.set pos (heap.getD c2 default)) c2).1.set
              (siftupLoop lt f (heap.set pos (heap.getD c2 default)) c2).2 x).Perm
            (heap.set pos x) := by
        intro c2 hpc hcl
        have hlen : c2 < (heap.set pos (heap.getD c2 default)).length := by
          rw [List.length_set]; exact hcl
        obtain ⟨a1, a2, a3⟩ := ih (heap.set pos (heap.getD c2 default)) c2 hlen
        refine ⟨a1, by rw [a2, List.length_set], fun x => ?_⟩
        exact (a3 x).trans
          (set_getD_set_perm heap pos c2 x default (Nat.ne_of_lt hpc) h hcl)
      by_cases hb : (2 * pos + 1 + 1 < heap.length &&
          !lt (heap.getD (2 * pos + 1) default)
            (heap.getD (2 * pos + 1 + 1) default)) = true
      · rw [if_pos hb]
        exact step (2 * pos + 1 + 1) (by omega)
          (of_decide_eq_true ((Bool.and_eq_true _ _).mp hb).1)
      · rw [if_neg hb]
        exact step (2 * pos + 1) (by omega) hcc
    · rw [if_neg hcc]
      exact ⟨h, rfl, fun x => List.Perm.refl _⟩

theorem siftup_perm {α : Type} [Inhabited α] (lt : α → α → Bool)
    (heap : List α) (pos : Nat) (h : pos < heap.length) :
    (siftup lt heap pos).Perm heap := by
  rw [siftup]
  obtain ⟨h1, h2, h3⟩ := siftupLoop_inv lt heap.length heap pos h
  have hlen : (siftupLoop lt heap.length heap pos).2 <
      ((siftupLoop lt heap.length heap pos).1.set
        (siftupLoop lt heap.length heap pos).2 (heap.getD pos default)).length := by
    rw [List.length_set]; exact h1
  refine (siftdown_perm lt _ pos _ hlen).trans ?_
  refine (h3 (heap.getD pos default)).trans ?_
  rw [set_getD_self heap pos default h]

theorem heapifyLoop_perm {α : Type} [Inhabited α] (lt : α → α → Bool) :
    ∀ (k : Nat) (heap : List α), k ≤ heap.length / 2 →
      (heapifyLoop lt k heap).Perm heap := by
  intro k
  induction k with
  | zero => intro heap h; exact List.Perm.refl _
  | succ j ih =>
    intro heap h
    rw [heapifyLoop]
    have hj : j < heap.length :=
      Nat.lt_of_lt_of_le (Nat.lt_of_lt_of_le (Nat.lt_succ_self j) h)
        (Nat.div_le_self _ _)
    have hp := siftup_perm lt heap j hj
    have hl : (siftup lt heap j).length = heap.length := hp.length_eq
    exact (ih (siftup lt heap j) (by rw [hl]; exact Nat.le_of_succ_le h)).trans hp

theorem heapify_perm {α : Type} [Inhabited α] (lt : α → α → Bool)
    (heap : List α) : (heapify lt heap).Perm heap :=
  heapifyLoop_perm lt (heap.length / 2) heap (Nat.le_refl _)

/-! ## Reachable-state invariants of the two frontier services -/

/-- One operation of the documented frontier service, for quantifying over
operation sequences. -/
inductive DOp where
  | enq (url : String) (depth : Nat) (freshness now : Frac)
  | next (now : Frac)
  | parsed (doc : ParsedDoc) (now : Frac)

/-- One step of the documented frontier service. -/
def FrontierState.step (s : FrontierState) : DOp → FrontierState
  | .enq url depth fr now => (s.enqueue_url url depth fr now).2
  | .next now => (s.get_next_crawl_item now).2
  | .parsed doc now => s.process_crawled_content doc now

/-- A run of the documented frontier service. -/
def runD (s : FrontierState) (ops : List DOp) : FrontierState :=
  ops.foldl FrontierState.step s

/-- The queue invariant of the enhanced frontier service: no two queued items
share a canonical id, every queued item's canonical id is in the seen set, and
every queued item's host has a token bucket. -/
def FrontierInvE (s : EnhancedFrontierState) : Prop :=
  (s.pq.map PQItem.canonical_id).Nodup ∧
  (∀ it ∈ s.pq, strListMem s.seen it.canonical_id = true) ∧
  (∀ it ∈ s.pq, alistMem s.tokens it.host = true)

/-- The queue invariant of the documented frontier service. -/
def FrontierInvD (s : FrontierState) : Prop :=
  (s.crawl_queue.map CrawlItem.canonical_id).Nodup ∧
  (∀ it ∈ s.crawl_queue, strListMem s.seen_urls it.canonical_id = true) ∧
  (∀ it ∈ s.crawl_queue, alistMem s.rate_limiters it.hostname = true)

theorem enqueue_shape (s : EnhancedFrontierState) (url : String) (d : Nat)
    (now : Frac) :
    ((s.enqueue url d now).2.pq = s.pq ∧ (s.enqueue url d now).2.seen = s.seen ∧
      (s.enqueue url d now).2.tokens = s.tokens) ∨
    ∃ (item : PQItem) (host : String),
      strListMem s.seen item.canonical_id = false ∧
      item.host = host ∧
      (s.enqueue url d now).2.pq = heappush PQItem.lt s.pq item ∧
      (s.enqueue url d now).2.seen = item.canonical_id :: s.seen ∧
      ((s.enqueue url d now).2.tokens = s.tokens ∧ alistMem s.tokens host = true ∨
       (s.enqueue url d now).2.tokens =
         s.tokens ++ [(host, TokenBucket.init s.rate_limit 1 now)]) := by
  cases hc : canonicalize url with
  | error e => exact Or.inl (by simp [EnhancedFrontierState.enqueue, hc])
  | ok p =>
    rcases p with ⟨cid, norm⟩
    cases hh : urlsplitHost norm with
    | error e => exact Or.inl (by simp [EnhancedFrontierState.enqueue, hc, hh])
    | ok hostOpt =>
      by_cases h1 : (decide (d > s.max_depth) || strListMem s.seen cid) = true
      · by_cases h2 : strListMem s.seen cid = true
        · exact Or.inl (by simp [EnhancedFrontierState.enqueue, hc, hh, h1, h2])
        · simp only [Bool.not_eq_true] at h2
          have hd : s.max_depth < d := by
            rw [h2, Bool.or_false] at h1
            exact of_decide_eq_true h1
          exact Or.inl (by simp [EnhancedFrontierState.enqueue, hc, hh, h1, h2, hd])
      · simp only [Bool.not_eq_true] at h1
        have h2 : strListMem s.seen cid = false := by
          rcases Bool.or_eq_false_iff.mp h1 with ⟨_, h2⟩
          exact h2
        refine Or.inr ⟨⟨(Frac.ofNat 1).sub
            (EnhancedFrontierState.score d (Frac.ofNat 1) (Frac.ofNat 1)),
          hostOpt.getD (""), cid, norm, d, 0, none⟩,
          hostOpt.getD (""), h2, rfl, ?_, ?_, ?_⟩
        · simp [EnhancedFrontierState.enqueue, hc, hh, h1]
        · simp [EnhancedFrontierState.enqueue, hc, hh, h1]
        · by_cases ht : alistMem s.tokens (hostOpt.getD ("")) = true
          · exact Or.inl ⟨by simp [EnhancedFrontierState.enqueue, hc, hh, h1, ht], ht⟩
          · simp only [Bool.not_eq_true] at ht
            exact Or.inr (by simp [EnhancedFrontierState.enqueue, hc, hh, h1, ht])

theorem frontierInvE_enqueue (s : EnhancedFrontierState) (url : String) (d : Nat)
    (now : Frac) (h : FrontierInvE s) : FrontierInvE (s.enqueue url d now).2 := by
  obtain ⟨hnd, hseen, htok⟩ := h
  rcases enqueue_shape s url d now with ⟨hp, hs, ht⟩ |
    ⟨item, host, hfresh, hhost, hp, hs, ht⟩
  · exact ⟨by rw [hp]; exact hnd, fun it hit => by
      rw [hs]; exact hseen it (by rwa [hp] at hit), fun it hit => by
      rw [ht]; exact htok it (by rwa [hp] at hit)⟩
  · have hperm := heappush_perm PQItem.lt s.pq item
    refine ⟨?_, ?_, ?_⟩
    · rw [hp]
      refine ((hperm.map PQItem.canonical_id).symm).nodup ?_
      rw [List.map_cons]
      refine List.nodup_cons.mpr ⟨?_, hnd⟩
      intro hmem
      obtain ⟨it, hit, heq⟩ := List.mem_map.mp hmem
      have := hseen it hit
      rw [heq, hfresh] at this
      exact Bool.false_ne_true this
    · intro it hit
      rw [hp] at hit
      rw [hs, strListMem_iff]
      rcases List.mem_cons.mp (hperm.mem_iff.mp hit) with he | hm
      · rw [he]
        exact List.mem_cons_self _ _
      · exact List.mem_cons_of_mem _ ((strListMem_iff _ _).mp (hseen it hm))
    · intro it hit
      rw [hp] at hit
      rcases List.mem_cons.mp (hperm.mem_iff.mp hit) with he | hm
      · rcases ht with ⟨hteq, htm⟩ | hteq
        · rw [hteq, he, hhost]
          exact htm
        · rw [hteq, he, hhost]
          exact alistMem_append_right _ _ _
      · rcases ht with ⟨hteq, _⟩ | hteq
        · rw [hteq]
          exact htok it hm
        · rw [hteq]
          exact alistMem_append_mono _ _ _ _ (htok it hm)

theorem leaseScanE_alistMem (l : List PQItem) (i : Nat)
    (tokens : List (String × TokenBucket)) (now : Frac) (k : String)
    (h : alistMem tokens k = true) :
    alistMem (leaseScanE l i tokens now).2.1 k = true := by
  induction l generalizing i tokens with
  | nil => exact h
  | cons item rest ih =>
    cases hb : alistLookup tokens item.host with
    | none =>
      rw [leaseScanE_cons_missing item rest i tokens now hb]
      exact ih (i + 1) tokens h
    | some b =>
      by_cases ha : (b.allow now).1 = true
      · rw [leaseScanE_cons_allow item rest i tokens now b hb ha]
        exact alistMem_set tokens item.host k _ h
      · simp only [Bool.not_eq_true] at ha
        rw [leaseScanE_cons_deny item rest i tokens now b hb ha]
        exact ih (i + 1) _ (alistMem_set tokens item.host k _ h)

theorem frontierInvE_lease (s : EnhancedFrontierState) (now : Frac)
    (h : FrontierInvE s) : FrontierInvE (s.lease now).2 := by
  obtain ⟨hnd, hseen, htok⟩ := h
  have htok' : ∀ it, it ∈ s.pq →
      alistMem (leaseScanE s.pq 0 s.tokens now).2.1 it.host = true :=
    fun it hit => leaseScanE_alistMem s.pq 0 s.tokens now it.host (htok it hit)
  rw [EnhancedFrontierState.lease]
  rcases hr : (leaseScanE s.pq 0 s.tokens now).1 with _ | ⟨i, item⟩
  · simp only [hr]
    exact ⟨hnd, hseen, htok'⟩
  · simp only [hr]
    have hperm := heapify_perm PQItem.lt (s.pq.eraseIdx i)
    have hsub : List.Sublist (s.pq.eraseIdx i) s.pq := List.eraseIdx_sublist s.pq i
    refine ⟨?_, ?_, ?_⟩
    · exact ((hperm.map PQItem.canonical_id).symm).nodup
        ((hsub.map PQItem.canonical_id).nodup hnd)
    · intro it hit
      exact hseen it (hsub.subset (hperm.mem_iff.mp hit))
    · intro it hit
      exact htok' it (hsub.subset (hperm.mem_iff.mp hit))

theorem frontierInvE_on_parsed (s : EnhancedFrontierState) (doc : ParsedDoc)
    (now : Frac) (h : FrontierInvE s) : FrontierInvE (s.on_parsed doc now) := by
  rw [EnhancedFrontierState.on_parsed]
  rcases doc with ⟨u, dep, links, ch⟩
  simp only
  induction links generalizing s with
  | nil => exact h
  | cons l ls ih =>
    simp only [List.foldl_cons]
    exact ih _ (frontierInvE_enqueue _ _ _ _ h)

theorem frontierInvE_step (s : EnhancedFrontierState) (op : FOp)
    (h : FrontierInvE s) : FrontierInvE (s.step op) := by
  cases op with
  | enq url d now => exact frontierInvE_enqueue s url d now h
  | lease now => exact frontierInvE_lease s now h
  | parsed doc now => exact frontierInvE_on_parsed s doc now h

theorem frontierInvE_run (s : EnhancedFrontierState) (ops : List FOp)
    (h : FrontierInvE s) : FrontierInvE (runE s ops) := by
  induction ops generalizing s with
  | nil => exact h
  | cons op ops ih => exact ih _ (frontierInvE_step s op h)

theorem frontierInvE_init (md : Nat) (rl : Frac) :
    FrontierInvE (EnhancedFrontierState.init md rl) := by
  refine ⟨?_, ?_, ?_⟩ <;> simp [EnhancedFrontierState.init]

theorem enqueue_url_shape (s : FrontierState) (url : String) (d : Nat)
    (f now : Frac) :
    ((s.enqueue_url url d f now).2.crawl_queue = s.crawl_queue ∧
      (s.enqueue_url url d f now).2.seen_urls = s.seen_urls ∧
      (s.enqueue_url url d f now).2.rate_limiters = s.rate_limiters) ∨
    ∃ (item : CrawlItem) (host : String),
      strListMem s.seen_urls item.canonical_id = false ∧
      item.hostname = host ∧
      (s.enqueue_url url d f now).2.crawl_queue =
        heappush CrawlItem.lt s.crawl_queue item ∧
      (s.enqueue_url url d f now).2.seen_urls = item.canonical_id :: s.seen_urls ∧
      ((s.enqueue_url url d f now).2.rate_limiters = s.rate_limiters ∧
          alistMem s.rate_limiters host = true ∨
       (s.enqueue_url url d f now).2.rate_limiters =
         s.rate_limiters ++ [(host, TokenBucketD.init s.default_rate_limit 1 now)]) := by
  cases hc : canonicalizeDoc url with
  | error e => exact Or.inl (by simp [FrontierState.enqueue_url, hc])
  | ok p =>
    rcases p with ⟨cid, norm⟩
    cases hh : urlsplitHost norm with
    | error e => exact Or.inl (by simp [FrontierState.enqueue_url, hc, hh])
    | ok hostOpt =>
      by_cases h1 : d > s.max_depth
      · exact Or.inl (by simp [FrontierState.enqueue_url, hc, hh, h1])
      · by_cases h2 : strListMem s.seen_urls cid = true
        · exact Or.inl (by simp [FrontierState.enqueue_url, hc, hh, h1, h2])
        · simp only [Bool.not_eq_true] at h2
          refine Or.inr ⟨⟨FrontierState.calculate_priority_score d f (Frac.ofNat 1),
            hostOpt.getD ("unknown"), cid, norm, d⟩,
            hostOpt.getD ("unknown"), h2, rfl, ?_, ?_, ?_⟩
          · simp [FrontierState.enqueue_url, hc, hh, h1, h2]
          · simp [FrontierState.enqueue_url, hc, hh, h1, h2]
          · by_cases ht : alistMem s.rate_limiters (hostOpt.getD ("unknown")) = true
            · exact Or.inl
                ⟨by simp [FrontierState.enqueue_url, hc, hh, h1, h2, ht], ht⟩
            · simp only [Bool.not_eq_true] at ht
              exact Or.inr (by simp [FrontierState.enqueue_url, hc, hh, h1, h2, ht])

theorem frontierInvD_enqueue (s : FrontierState) (url : String) (d : Nat)
    (f now : Frac) (h : FrontierInvD s) : FrontierInvD (s.enqueue_url url d f now).2 := by
  obtain ⟨hnd, hseen, htok⟩ := h
  rcases enqueue_url_shape s url d f now with ⟨hp, hs, ht⟩ |
    ⟨item, host, hfresh, hhost, hp, hs, ht⟩
  · exact ⟨by rw [hp]; exact hnd, fun it hit => by
      rw [hs]; exact hseen it (by rwa [hp] at hit), fun it hit => by
      rw [ht]; exact htok it (by rwa [hp] at hit)⟩
  · have hperm := heappush_perm CrawlItem.lt s.crawl_queue item
    refine ⟨?_, ?_, ?_⟩
    · rw [hp]
      refine ((hperm.map CrawlItem.canonical_id).symm).nodup ?_
      rw [List.map_cons]
      refine List.nodup_cons.mpr ⟨?_, hnd⟩
      intro hmem
      obtain ⟨it, hit, heq⟩ := List.mem_map.mp hmem
      have := hseen it hit
      rw [heq, hfresh] at this
      exact Bool.false_ne_true this
    · intro it hit
      rw [hp] at hit
      rw [hs, strListMem_iff]
      rcases List.mem_cons.mp (hperm.mem_iff.mp hit) with he | hm
      · rw [he]
        exact List.mem_cons_self _ _
      · exact List.mem_cons_of_mem _ ((strListMem_iff _ _).mp (hseen it hm))
    · intro it hit
      rw [hp] at hit
      rcases List.mem_cons.mp (hperm.mem_iff.mp hit) with he | hm
      · rcases ht with ⟨hteq, htm⟩ | hteq
        · rw [hteq, he, hhost]
          exact htm
        · rw [hteq, he, hhost]
          exact alistMem_append_right _ _ _
      · rcases ht with ⟨hteq, _⟩ | hteq
        · rw [hteq]
          exact htok it hm
        · rw [hteq]
          exact alistMem_append_mono _ _ _ _ (htok it hm)

theorem leaseScanD_cons_missing (item : CrawlItem) (rest : List CrawlItem) (i : Nat)
    (limiters : List (String × TokenBucketD)) (now : Frac)
    (hb : alistLookup limiters item.hostname = none) :
    leaseScanD (item :: rest) i limiters now = leaseScanD rest (i + 1) limiters now := by
  simp [leaseScanD, hb]

theorem leaseScanD_alistMem (l : List CrawlItem) (i : Nat)
    (limiters : List (String × TokenBucketD)) (now : Frac) (k : String)
    (h : alistMem limiters k = true) :
    alistMem (leaseScanD l i limiters now).2.1 k = true := by
  induction l generalizing i limiters with
  | nil => exact h
  | cons item rest ih =>
    cases hb : alistLookup limiters item.hostname with
    | none =>
      rw [leaseScanD_cons_missing item rest i limiters now hb]
      exact ih (i + 1) limiters h
    | some b =>
      by_cases ha : (b.allow_request now).1 = true
      · rw [leaseScanD_cons_allow item rest i limiters now b hb ha]
        exact alistMem_set limiters item.hostname k _ h
      · simp only [Bool.not_eq_true] at ha
        rw [leaseScanD_cons_deny item rest i limiters now b hb ha]
        exact ih (i + 1) _ (alistMem_set limiters item.hostname k _ h)

theorem frontierInvD_next (s : FrontierState) (now : Frac)
    (h : FrontierInvD s) : FrontierInvD (s.get_next_crawl_item now).2 := by
  obtain ⟨hnd, hseen, htok⟩ := h
  have htok' : ∀ it, it ∈ s.crawl_queue →
      alistMem (leaseScanD s.crawl_queue 0 s.rate_limiters now).2.1 it.hostname = true :=
    fun it hit => leaseScanD_alistMem s.crawl_queue 0 s.rate_limiters now
      it.hostname (htok it hit)
  rw [FrontierState.get_next_crawl_item]
  rcases hr : (leaseScanD s.crawl_queue 0 s.rate_limiters now).1 with _ | ⟨i, item⟩
  · simp only [hr]
    exact ⟨hnd, hseen, htok'⟩
  · simp only [hr]
    have hperm := heapify_perm CrawlItem.lt (s.crawl_queue.eraseIdx i)
    have hsub : List.Sublist (s.crawl_queue.eraseIdx i) s.crawl_queue :=
      List.eraseIdx_sublist s.crawl_queue i
    refine ⟨?_, ?_, ?_⟩
    · exact ((hperm.map CrawlItem.canonical_id).symm).nodup
        ((hsub.map CrawlItem.canonical_id).nodup hnd)
    · intro it hit
      exact hseen it (hsub.subset (hperm.mem_iff.mp hit))
    · intro it hit
      exact htok' it (hsub.subset (hperm.mem_iff.mp hit))

theorem frontierInvD_enqueue_foldl (links : List String) (s : FrontierState)
    (dep : Nat) (now : Frac) (h : FrontierInvD s) :
    FrontierInvD (links.foldl
      (fun st link => (st.enqueue_url link dep (Frac.ofNat 1) now).2) s) := by
  induction links generalizing s with
  | nil => exact h
  | cons l ls ih =>
    simp only [List.foldl_cons]
    exact ih _ (frontierInvD_enqueue _ _ _ _ _ h)

theorem frontierInvD_process (s : FrontierState) (doc : ParsedDoc) (now : Frac)
    (h : FrontierInvD s) : FrontierInvD (s.process_crawled_content doc now) := by
  rw [FrontierState.process_crawled_content]
  by_cases hdup : (!doc.content_hash.data.isEmpty &&
      strListMem s.content_hashes doc.content_hash) = true
  · rw [if_pos hdup]
    exact h
  · rw [if_neg hdup]
    have h1 : FrontierInvD (if !doc.content_hash.data.isEmpty then
        { s with content_hashes := doc.content_hash :: s.content_hashes } else s) := by
      by_cases hch : (!doc.content_hash.data.isEmpty) = true
      · rw [if_pos hch]
        exact h
      · rw [if_neg hch]
        exact h
    exact frontierInvD_enqueue_foldl doc.outlinks _ (doc.depth + 1) now h1

theorem frontierInvD_step (s : FrontierState) (op : DOp)
    (h : FrontierInvD s) : FrontierInvD (s.step op) := by
  cases op with
  | enq url d f now => exact frontierInvD_enqueue s url d f now h
  | next now => exact frontierInvD_next s now h
  | parsed doc now => exact frontierInvD_process s doc now h

theorem frontierInvD_run (s : FrontierState) (ops : List DOp)
    (h : FrontierInvD s) : FrontierInvD (runD s ops) := by
  induction ops generalizing s with
  | nil => exact h
  | cons op ops ih => exact ih _ (frontierInvD_step s op h)

theorem frontierInvD_init (md : Nat) (rl : Frac) :
    FrontierInvD (FrontierState.init md rl) := by
  refine ⟨?_, ?_, ?_⟩ <;> simp [FrontierState.init]

/-- C9: in every state of either frontier service reachable by any sequence
of enqueue, lease and completion operations from a fresh frontier, the
priority queue contains no two items with the same canonical id (the map of
`canonical_id` over the queue has no duplicates): the seen-set check at
enqueue time, together with the fact that the heap operations only permute
the queue, enforces the invariant. -/
theorem C9_no_duplicate_canonical_ids (md : Nat) (rl : Frac) (opsE : List FOp)
    (opsD : List DOp) :
    ((runE (EnhancedFrontierState.init md rl) opsE).pq.map
      PQItem.canonical_id).Nodup ∧
    ((runD (FrontierState.init md rl) opsD).crawl_queue.map
      CrawlItem.canonical_id).Nodup :=
  ⟨(frontierInvE_run _ opsE (frontierInvE_init md rl)).1,
   (frontierInvD_run _ opsD (frontierInvD_init md rl)).1⟩

/-- C10: in every state of either frontier service reachable from a fresh
frontier, every item in the priority queue has its host present as a key of
the rate-limiter map — the bucket is created by the enqueue that pushed the
item and keys are never removed — so the map lookup performed during a lease
scan never skips a queued item for lack of a bucket. -/
theorem C10_queued_hosts_have_buckets (md : Nat) (rl : Frac) (opsE : List FOp)
    (opsD : List DOp) :
    (∀ it ∈ (runE (EnhancedFrontierState.init md rl) opsE).pq,
      alistMem (runE (EnhancedFrontierState.init md rl) opsE).tokens
        it.host = true) ∧
    (∀ it ∈ (runD (FrontierState.init md rl) opsD).crawl_queue,
      alistMem (runD (FrontierState.init md rl) opsD).rate_limiters
        it.hostname = true) :=
  ⟨(frontierInvE_run _ opsE (frontierInvE_init md rl)).2.2,
   (frontierInvD_run _ opsD (frontierInvD_init md rl)).2.2⟩

/-- C10 witness: after one successful enqueue on each fresh service, the single
queued item's host has a bucket in the rate-limiter map. -/
theorem C10_witness :
    alistMem (runE (EnhancedFrontierState.init 3 (Frac.ofNat 1))
        [FOp.enq ("http://a.example/") 0 (Frac.ofNat 0)]).tokens
      ((runE (EnhancedFrontierState.init 3 (Frac.ofNat 1))
        [FOp.enq ("http://a.example/") 0 (Frac.ofNat 0)]).pq.headD
          default).host = true ∧
    alistMem (runD (FrontierState.init 3 (Frac.ofNat 1))
        [DOp.enq ("http://a.example/") 0 (Frac.ofNat 1) (Frac.ofNat 0)]).rate_limiters
      ((runD (FrontierState.init 3 (Frac.ofNat 1))
        [DOp.enq ("http://a.example/") 0 (Frac.ofNat 1) (Frac.ofNat 0)]).crawl_queue.headD
          default).hostname = true := by
  refine ⟨(C10_queued_hosts_have_buckets 3 (Frac.ofNat 1)
      [FOp.enq ("http://a.example/") 0 (Frac.ofNat 0)] []).1 _ ?_,
    (C10_queued_hosts_have_buckets 3 (Frac.ofNat 1) []
      [DOp.enq ("http://a.example/") 0 (Frac.ofNat 1) (Frac.ofNat 0)]).2 _ ?_⟩
  · exact List.mem_cons_self _ _
  · exact List.mem_cons_self _ _

/-! ## C2: lease ordering -/

/-- `true` iff every recorded `allow()` verdict for host `h` is an admit:
the item was never rate-limited during the run. -/
def neverLimitedB (events : List (String × Bool)) (h : String) : Bool :=
  events.all (fun e => !strEqB e.1 h || e.2)

/-- The C2 claim as stated by the spec: in every run of the enhanced frontier
service, the leased items whose hosts were admitted by every `allow()` check
made on them have non-decreasing priority scores, in lease order. -/
def ClaimC2 : Prop :=
  ∀ (md : Nat) (rl : Frac) (ops : List FOp),
    List.Chain' (fun a b : PQItem => a.score.ble b.score = true)
      (((runTraceE (EnhancedFrontierState.init md rl) ops).2.1).filter
        (fun it => neverLimitedB
          ((runTraceE (EnhancedFrontierState.init md rl) ops).2.2) it.host))

/-- The interleaved run refuting C2: enqueue a depth-2 URL, lease it, enqueue
a depth-1 URL (smaller inverted score), lease it.  No `allow()` check ever
denies, yet the leased scores are `0.4` then `0.3`. -/
def c2Ops : List FOp :=
  [FOp.enq ("http://x.example/a") 2 (Frac.ofNat 0),
   FOp.lease (Frac.ofNat 0),
   FOp.enq ("http://y.example/") 1 (Frac.ofNat 0),
   FOp.lease (Frac.ofNat 0)]

set_option maxRecDepth 100000 in
/-- C2 counterexample: the claim fails on `c2Ops` — both leased items' hosts
admit every `allow()` check made on them (each host's bucket is fresh), but
the first leased item has score `0.4` and the second `0.3`: leases interleaved
with enqueues are not globally ordered by score. -/
theorem C2_counterexample : ¬ ClaimC2 := by
  intro h
  have hc := (List.chain'_iff_get.mp (h 3 (Frac.ofNat 1) c2Ops)) 0 (by decide)
  exact absurd hc (by decide)

/-! ## The heap-order property of the heapq model

`_siftdown` and `_siftup` are proved to establish the binary-heap property,
which gives the root-minimality fact behind the amended lease-ordering
statement. -/

theorem getD_set_eq {α : Type} (l : List α) (i : Nat) (a d : α)
    (h : i < l.length) : (l.set i a).getD i d = a := by
  induction l generalizing i with
  | nil => simp at h
  | cons x xs ih =>
    cases i with
    | zero => simp [List.set]
    | succ i2 =>
      simp only [List.set, List.getD_cons_succ]
      exact ih i2 (by simpa using h)

/-- `Desc r j`: index `j` lies in the binary-heap subtree rooted at `r`
(children of `p` are `2p+1` and `2p+2`). -/
inductive Desc : Nat → Nat → Prop
  | refl (r : Nat) : Desc r r
  | left {r j : Nat} : Desc r j → Desc r (2 * j + 1)
  | right {r j : Nat} : Desc r j → Desc r (2 * j + 2)

theorem desc_le {r j : Nat} (h : Desc r j) : r ≤ j := by
  induction h with
  | refl => exact Nat.le_refl _
  | left _ ih => omega
  | right _ ih => omega

theorem desc_parent {r j : Nat} (h : Desc r j) (hne : j ≠ r) :
    Desc r ((j - 1) / 2) := by
  cases h with
  | refl => exact absurd rfl hne
  | left hd =>
    rename_i k
    have he : (2 * k + 1 - 1) / 2 = k := by omega
    rw [he]
    exact hd
  | right hd =>
    rename_i k
    have he : (2 * k + 2 - 1) / 2 = k := by omega
    rw [he]
    exact hd

theorem desc_child {r p c : Nat} (h : Desc r p)
    (hc : c = 2 * p + 1 ∨ c = 2 * p + 2) : Desc r c := by
  rcases hc with hc | hc
  · rw [hc]; exact Desc.left h
  · rw [hc]; exact Desc.right h

theorem desc_zero (j : Nat) : Desc 0 j := by
  induction j using Nat.strong_induction_on with
  | _ j ih =>
    rcases Nat.eq_zero_or_pos j with hz | hp
    · rw [hz]; exact Desc.refl 0
    · have hpar : (j - 1) / 2 < j := by omega
      have hd := ih ((j - 1) / 2) hpar
      have h2 : j = 2 * ((j - 1) / 2) + 1 ∨ j = 2 * ((j - 1) / 2) + 2 := by omega
      rcases h2 with h2 | h2
      · rw [h2]; exact Desc.left hd
      · rw [h2]; exact Desc.right hd

theorem not_desc_child {r p c : Nat} (hrp : r ≤ p) (h : ¬ Desc r p)
    (hc : c = 2 * p + 1 ∨ c = 2 * p + 2) : ¬ Desc r c := by
  intro hdc
  have hcr : c ≠ r := by omega
  have hp : (c - 1) / 2 = p := by omega
  have := desc_parent hdc hcr
  rw [hp] at this
  exact h this

/-- Heap-edge property for all edges whose parent lies in the subtree rooted
at `r`. -/
def SubHeap {α : Type} [Inhabited α] (lt : α → α → Bool) (l : List α)
    (r : Nat) : Prop :=
  ∀ p c : Nat, Desc r p → (c = 2 * p + 1 ∨ c = 2 * p + 2) → c < l.length →
    lt (l.getD c default) (l.getD p default) = false

/-- The binary-heap property maintained by `heapq`: no child compares less
than its parent. -/
def IsHeap {α : Type} [Inhabited α] (lt : α → α → Bool) (l : List α) : Prop :=
  ∀ p c : Nat, (c = 2 * p + 1 ∨ c = 2 * p + 2) → c < l.length →
    lt (l.getD c default) (l.getD p default) = false

theorem isHeap_of_subHeap_zero {α : Type} [Inhabited α] {lt : α → α → Bool}
    {l : List α} (h : SubHeap lt l 0) : IsHeap lt l :=
  fun p c hc hcl => h p c (desc_zero p) hc hcl

theorem isHeap_nil {α : Type} [Inhabited α] (lt : α → α → Bool) :
    IsHeap lt ([] : List α) := by
  intro p c hc hcl
  simp at hcl

theorem siftdown_place {α : Type} [Inhabited α] (lt : α → α → Bool)
    (newitem : α) (r : Nat) (l : List α) (h : Nat)
    (hdesc : Desc r h) (hlen : h < l.length)
    (hb : ∀ p c, Desc r p → (c = 2 * p + 1 ∨ c = 2 * p + 2) → c < l.length →
      c ≠ h → lt (l.getD c default) (l.getD p default) = false)
    (hc : ∀ c, (c = 2 * h + 1 ∨ c = 2 * h + 2) → c < l.length →
      lt (l.getD c default) newitem = false)
    (hpar : h ≠ r → lt newitem (l.getD ((h - 1) / 2) default) = false) :
    SubHeap lt (l.set h newitem) r ∧
    (∀ j, ¬ Desc r j → (l.set h newitem).getD j default = l.getD j default) ∧
    (l.set h newitem).length = l.length := by
  refine ⟨?_, ?_, List.length_set l h newitem⟩
  · intro p c hdp hcc hcl
    rw [List.length_set] at hcl
    by_cases hch : c = h
    · have hrp := desc_le hdp
      have hp : p = (h - 1) / 2 := by rcases hcc with hcc | hcc <;> omega
      have hhr : h ≠ r := by rcases hcc with hcc | hcc <;> omega
      have hph : p ≠ h := by rcases hcc with hcc | hcc <;> omega
      rw [hch, getD_set_eq l h newitem default hlen,
        getD_set_ne l h p newitem default (fun hx => hph hx.symm)]
      rw [hp]
      exact hpar hhr
    · by_cases hph : p = h
      · rw [getD_set_ne l h c newitem default (fun hx => hch hx.symm),
          hph, getD_set_eq l h newitem default hlen]
        exact hc c (hph ▸ hcc) hcl
      · rw [getD_set_ne l h c newitem default (fun hx => hch hx.symm),
          getD_set_ne l h p newitem default (fun hx => hph hx.symm)]
        exact hb p c hdp hcc hcl hch
  · intro j hj
    have hjh : j ≠ h := fun he => hj (he ▸ hdesc)
    exact getD_set_ne l h j newitem default (fun hx => hjh hx.symm)

theorem siftdownLoop_ok {α : Type} [Inhabited α] (lt : α → α → Bool)
    (hirr : ∀ x, lt x x = false)
    (hasym : ∀ x y, lt x y = true → lt y x = false)
    (htrans : ∀ x y z, lt y x = false → lt z y = false → lt z x = false)
    (newitem : α) (r : Nat) (fuel : Nat) :
    ∀ (l : List α) (h : Nat),
      h ≤ fuel → Desc r h → h < l.length →
      (∀ p c, Desc r p → (c = 2 * p + 1 ∨ c = 2 * p + 2) → c < l.length →
        c ≠ h → lt (l.getD c default) (l.getD p default) = false) →
      (∀ c, (c = 2 * h + 1 ∨ c = 2 * h + 2) → c < l.length →
        lt (l.getD c default) newitem = false) →
      (∀ c, (c = 2 * h + 1 ∨ c = 2 * h + 2) → c < l.length →
        lt (l.getD c default) (l.getD h default) = false) →
      (h ≠ r → 2 * h + 1 < l.length →
        lt (l.getD h default) (l.getD ((h - 1) / 2) default) = false) →
      SubHeap lt (siftdownLoop lt newitem fuel l r h) r ∧
      (∀ j, ¬ Desc r j →
        (siftdownLoop lt newitem fuel l r h).getD j default = l.getD j default) ∧
      (siftdownLoop lt newitem fuel l r h).length = l.length := by
  induction fuel with
  | zero =>
    intro l h hfuel hdesc hlen hb hc he hf
    have hh : h = 0 := Nat.le_zero.mp hfuel
    have hr : h = r := by
      have := desc_le hdesc
      omega
    exact siftdown_place lt newitem r l h hdesc hlen hb hc
      (fun hne => absurd hr hne)
  | succ f ih =>
    intro l h hfuel hdesc hlen hb hc he hf
    rw [siftdownLoop]
    by_cases hrh : r < h
    · rw [if_pos hrh]
      by_cases hlt : lt newitem (l.getD ((h - 1) / 2) default) = true
      · simp only [hlt, if_true]
        have hhr : h ≠ r := by omega
        have hparlt : (h - 1) / 2 < h := by omega
        have hparlen : (h - 1) / 2 < l.length := by omega
        have hdpar : Desc r ((h - 1) / 2) := desc_parent hdesc hhr
        set l2 := l.set h (l.getD ((h - 1) / 2) default) with hl2
        have hlen2 : l2.length = l.length := List.length_set l h _
        have hgeth : l2.getD h default = l.getD ((h - 1) / 2) default :=
          getD_set_eq l h _ default hlen
        have hgetne : ∀ j, j ≠ h → l2.getD j default = l.getD j default :=
          fun j hj => getD_set_ne l h j _ default (fun hx => hj hx.symm)
        have hb2 : ∀ p c, Desc r p → (c = 2 * p + 1 ∨ c = 2 * p + 2) →
            c < l2.length → c ≠ (h - 1) / 2 →
            lt (l2.getD c default) (l2.getD p default) = false := by
          intro p c hdp hcc hcl hcpar
          rw [hlen2] at hcl
          by_cases hch : c = h
          · have hrp := desc_le hdp
            have hp : p = (h - 1) / 2 := by rcases hcc with hcc | hcc <;> omega
            have hph : p ≠ h := by omega
            rw [hch, hgeth, hgetne p hph, hp]
            exact hirr _
          · by_cases hph : p = h
            · have hc2 : 2 * h + 1 < l.length := by
                rcases hcc with hcc | hcc <;> omega
              rw [hgetne c hch, hph, hgeth]
              refine htrans _ _ _ (hf hhr hc2) (he c ?_ hcl)
              rw [hph] at hcc
              exact hcc
            · rw [hgetne c hch, hgetne p hph]
              exact hb p c hdp hcc hcl hch
        have hc2 : ∀ c, (c = 2 * ((h - 1) / 2) + 1 ∨ c = 2 * ((h - 1) / 2) + 2) →
            c < l2.length → lt (l2.getD c default) newitem = false := by
          intro c hcc hcl
          rw [hlen2] at hcl
          by_cases hch : c = h
          · rw [hch, hgeth]
            exact hasym _ _ hlt
          · rw [hgetne c hch]
            exact htrans _ _ _ (hasym _ _ hlt) (hb ((h - 1) / 2) c hdpar hcc hcl hch)
        have he2 : ∀ c, (c = 2 * ((h - 1) / 2) + 1 ∨ c = 2 * ((h - 1) / 2) + 2) →
            c < l2.length → lt (l2.getD c default) (l2.getD ((h - 1) / 2) default) =
              false := by
          intro c hcc hcl
          rw [hlen2] at hcl
          rw [hgetne ((h - 1) / 2) (by omega)]
          by_cases hch : c = h
          · rw [hch, hgeth]
            exact hirr _
          · rw [hgetne c hch]
            exact hb ((h - 1) / 2) c hdpar hcc hcl hch
        have hf2 : (h - 1) / 2 ≠ r → 2 * ((h - 1) / 2) + 1 < l2.length →
            lt (l2.getD ((h - 1) / 2) default)
              (l2.getD (((h - 1) / 2 - 1) / 2) default) = false := by
          intro hpr hplen
          rw [hlen2] at hplen
          have hrpar := desc_le hdpar
          have hshape : (h - 1) / 2 = 2 * (((h - 1) / 2 - 1) / 2) + 1 ∨
              (h - 1) / 2 = 2 * (((h - 1) / 2 - 1) / 2) + 2 := by omega
          rw [hgetne ((h - 1) / 2) (by omega), hgetne (((h - 1) / 2 - 1) / 2) (by omega)]
          exact hb (((h - 1) / 2 - 1) / 2) ((h - 1) / 2) (desc_parent hdpar hpr)
            hshape hparlen (by omega)
        obtain hS := ih l2 ((h - 1) / 2) (by omega) hdpar
          (by rw [hlen2]; exact hparlen) hb2 hc2 he2 hf2
        refine hS.imp id (And.imp ?_ ?_)
        · intro hloc j hj
          rw [hloc j hj, hgetne j (fun he2 => hj (he2.symm ▸ hdesc))]
        · intro hl
          rw [hl, hlen2]
      · rw [if_neg hlt]
        simp only [Bool.not_eq_true] at hlt
        exact siftdown_place lt newitem r l h hdesc hlen hb hc (fun _ => hlt)
    · rw [if_neg hrh]
      have hr : h = r := by
        have := desc_le hdesc
        omega
      exact siftdown_place lt newitem r l h hdesc hlen hb hc
        (fun hne => absurd hr hne)

theorem siftdown_leaf_ok {α : Type} [Inhabited α] (lt : α → α → Bool)
    (hirr : ∀ x, lt x x = false)
    (hasym : ∀ x y, lt x y = true → lt y x = false)
    (htrans : ∀ x y z, lt y x = false → lt z y = false → lt z x = false)
    (l : List α) (r pos : Nat)
    (hdesc : Desc r pos) (hlen : pos < l.length) (hleaf : l.length ≤ 2 * pos + 1)
    (hb : ∀ p c, Desc r p → (c = 2 * p + 1 ∨ c = 2 * p + 2) → c < l.length →
      c ≠ pos → lt (l.getD c default) (l.getD p default) = false) :
    SubHeap lt (siftdown lt l r pos) r ∧
    (∀ j, ¬ Desc r j → (siftdown lt l r pos).getD j default = l.getD j default) ∧
    (siftdown lt l r pos).length = l.length := by
  rw [siftdown]
  exact siftdownLoop_ok lt hirr hasym htrans (l.getD pos default) r pos l pos
    (Nat.le_refl _) hdesc hlen hb
    (fun c hcc hcl => by rcases hcc with hcc | hcc <;> exact absurd hcl (by omega))
    (fun c hcc hcl => by rcases hcc with hcc | hcc <;> exact absurd hcl (by omega))
    (fun _ h2 => absurd h2 (by omega))

theorem getD_append_left {α : Type} (l l2 : List α) (j : Nat) (d : α)
    (h : j < l.length) : (l ++ l2).getD j d = l.getD j d := by
  induction l generalizing j with
  | nil => simp at h
  | cons x xs ih =>
    cases j with
    | zero => simp
    | succ j2 => simpa using ih j2 (by simpa using h)

theorem heappush_isHeap {α : Type} [Inhabited α] (lt : α → α → Bool)
    (hirr : ∀ x, lt x x = false)
    (hasym : ∀ x y, lt x y = true → lt y x = false)
    (htrans : ∀ x y z, lt y x = false → lt z y = false → lt z x = false)
    (l : List α) (item : α) (h : IsHeap lt l) :
    IsHeap lt (heappush lt l item) := by
  rw [heappush]
  refine isHeap_of_subHeap_zero (siftdown_leaf_ok lt hirr hasym htrans
    (l ++ [item]) 0 l.length (desc_zero _) (by simp)
    (by simp only [List.length_append, List.length_singleton]; omega) ?_).1
  intro p c hdp hcc hcl hcne
  have hcl2 : c < l.length := by
    rw [List.length_append, List.length_singleton] at hcl
    omega
  have hpl : p < l.length := by rcases hcc with hcc | hcc <;> omega
  rw [getD_append_left l [item] c default hcl2,
    getD_append_left l [item] p default hpl]
  exact h p c hcc hcl2

theorem siftupLoop_ok {α : Type} [Inhabited α] (lt : α → α → Bool)
    (hasym : ∀ x y, lt x y = true → lt y x = false)
    (pos : Nat) (fuel : Nat) :
    ∀ (l : List α) (h : Nat),
      l.length ≤ fuel + h → Desc pos h → h < l.length →
      (∀ p c, Desc pos p → (c = 2 * p + 1 ∨ c = 2 * p + 2) → c < l.length →
        p ≠ h → c ≠ h → lt (l.getD c default) (l.getD p default) = false) →
      (h ≠ pos → ∀ c, (c = 2 * h + 1 ∨ c = 2 * h + 2) → c < l.length →
        lt (l.getD c default) (l.getD h default) = false) →
      (h ≠ pos → l.getD ((h - 1) / 2) default = l.getD h default) →
      Desc pos (siftupLoop lt fuel l h).2 ∧
      (siftupLoop lt fuel l h).2 < l.length ∧
      (siftupLoop lt fuel l h).1.length = l.length ∧
      l.length ≤ 2 * (siftupLoop lt fuel l h).2 + 1 ∧
      (∀ p c, Desc pos p → (c = 2 * p + 1 ∨ c = 2 * p + 2) → c < l.length →
        c ≠ (siftupLoop lt fuel l h).2 →
        lt ((siftupLoop lt fuel l h).1.getD c default)
          ((siftupLoop lt fuel l h).1.getD p default) = false) ∧
      (∀ j, ¬ Desc pos j →
        (siftupLoop lt fuel l h).1.getD j default = l.getD j default) := by
  induction fuel with
  | zero =>
    intro l h hfuel hdesc hlen hb he hg
    exact absurd hlen (by omega)
  | succ f ih =>
    intro l h hfuel hdesc hlen hb he hg
    rw [siftupLoop_succ]
    by_cases hcc : 2 * h + 1 < l.length
    · rw [if_pos hcc]
      have step : ∀ cn : Nat, (cn = 2 * h + 1 ∨ cn = 2 * h + 2) → cn < l.length →
          (∀ s, (s = 2 * h + 1 ∨ s = 2 * h + 2) → s < l.length → s ≠ cn →
            lt (l.getD s default) (l.getD cn default) = false) →
          Desc pos (siftupLoop lt f (l.set h (l.getD cn default)) cn).2 ∧
          (siftupLoop lt f (l.set h (l.getD cn default)) cn).2 < l.length ∧
          (siftupLoop lt f (l.set h (l.getD cn default)) cn).1.length = l.length ∧
          l.length ≤ 2 * (siftupLoop lt f (l.set h (l.getD cn default)) cn).2 + 1 ∧
          (∀ p c, Desc pos p → (c = 2 * p + 1 ∨ c = 2 * p + 2) → c < l.length →
            c ≠ (siftupLoop lt f (l.set h (l.getD cn default)) cn).2 →
            lt ((siftupLoop lt f (l.set h (l.getD cn default)) cn).1.getD c default)
              ((siftupLoop lt f (l.set h (l.getD cn default)) cn).1.getD p default) =
              false) ∧
          (∀ j, ¬ Desc pos j →
            (siftupLoop lt f (l.set h (l.getD cn default)) cn).1.getD j default =
              l.getD j default) := by
        intro cn hs1 hs2 hs3
        set l2 := l.set h (l.getD cn default) with hl2def
        have hlen2 : l2.length = l.length := List.length_set l h _
        have hgeth : l2.getD h default = l.getD cn default :=
          getD_set_eq l h _ default hlen
        have hgetne : ∀ j, j ≠ h → l2.getD j default = l.getD j default :=
          fun j hj => getD_set_ne l h j _ default (fun hx => hj hx.symm)
        have hcnh : cn ≠ h := by omega
        have hdcn : Desc pos cn := desc_child hdesc hs1
        have hb2 : ∀ p c, Desc pos p → (c = 2 * p + 1 ∨ c = 2 * p + 2) →
            c < l2.length → p ≠ cn → c ≠ cn →
            lt (l2.getD c default) (l2.getD p default) = false := by
          intro p c hdp hsh hcl hpcn hccn
          rw [hlen2] at hcl
          by_cases hch : c = h
          · have hp : p = (h - 1) / 2 := by rcases hsh with hsh | hsh <;> omega
            by_cases hhp : h = pos
            · have hple := desc_le hdp
              exact absurd hple (by rcases hsh with hsh | hsh <;> omega)
            · have hph : p ≠ h := by rcases hsh with hsh | hsh <;> omega
              rw [hch, hgeth, hgetne p hph, hp, hg hhp]
              exact he hhp cn hs1 hs2
          · by_cases hph : p = h
            · rw [hgetne c hch, hph, hgeth]
              refine hs3 c ?_ hcl hccn
              rw [hph] at hsh
              exact hsh
            · rw [hgetne c hch, hgetne p hph]
              exact hb p c hdp hsh hcl hph hch
        have he2 : cn ≠ pos → ∀ c, (c = 2 * cn + 1 ∨ c = 2 * cn + 2) →
            c < l2.length → lt (l2.getD c default) (l2.getD cn default) = false := by
          intro _ c hsh hcl
          rw [hlen2] at hcl
          have hcnech : c ≠ h := by omega
          rw [hgetne c hcnech, hgetne cn hcnh]
          exact hb cn c hdcn hsh hcl hcnh hcnech
        have hg2 : cn ≠ pos → l2.getD ((cn - 1) / 2) default = l2.getD cn default := by
          intro _
          have hpar : (cn - 1) / 2 = h := by omega
          rw [hpar, hgeth, hgetne cn hcnh]
        obtain ⟨k1, k2, k3, k4, k5, k6⟩ := ih l2 cn
          (by rw [hlen2]; omega) hdcn (by rw [hlen2]; exact hs2) hb2 he2 hg2
        rw [hlen2] at k2 k3 k4
        refine ⟨k1, k2, k3, k4, ?_, ?_⟩
        · intro p c hdp hsh hcl hcne
          exact k5 p c hdp hsh (by rw [hlen2]; exact hcl) hcne
        · intro j hj
          rw [k6 j hj, hgetne j (fun hx => hj (hx.symm ▸ hdesc))]
      by_cases hsel : (2 * h + 1 + 1 < l.length &&
          !lt (l.getD (2 * h + 1) default) (l.getD (2 * h + 1 + 1) default)) = true
      · rw [if_pos hsel]
        have hb1 := (Bool.and_eq_true _ _).mp hsel
        have hrlen : 2 * h + 1 + 1 < l.length := of_decide_eq_true hb1.1
        have hltf : lt (l.getD (2 * h + 1) default) (l.getD (2 * h + 1 + 1) default) =
            false := by
          have := hb1.2
          rwa [Bool.not_eq_eq_eq_not, Bool.not_true] at this
        refine step (2 * h + 1 + 1) (by omega) hrlen ?_
        intro s hsh hsl hsne
        have hs : s = 2 * h + 1 := by omega
        rw [hs]
        exact hltf
      · rw [if_neg hsel]
        refine step (2 * h + 1) (Or.inl rfl) hcc ?_
        intro s hsh hsl hsne
        have hs : s = 2 * h + 1 + 1 := by omega
        have hb1 : (2 * h + 1 + 1 < l.length ∧
            (!lt (l.getD (2 * h + 1) default) (l.getD (2 * h + 1 + 1) default)) = true) →
            False := fun hx => hsel ((Bool.and_eq_true _ _).mpr ⟨decide_eq_true hx.1, hx.2⟩)
        have hlt1 : lt (l.getD (2 * h + 1) default) (l.getD (2 * h + 1 + 1) default) =
            true := by
          rcases hx : lt (l.getD (2 * h + 1) default) (l.getD (2 * h + 1 + 1) default) with
            _ | _
          · exact absurd (hb1 ⟨by omega, by rw [hx]; rfl⟩) not_false
          · rfl
        rw [hs]
        exact hasym _ _ hlt1
    · rw [if_neg hcc]
      refine ⟨hdesc, hlen, rfl, by omega, ?_, fun j _ => rfl⟩
      intro p c hdp hsh hcl hcne
      by_cases hph : p = h
      · rw [hph] at hsh
        exact absurd hcl (by rcases hsh with hsh | hsh <;> omega)
      · exact hb p c hdp hsh hcl hph hcne

theorem siftup_ok {α : Type} [Inhabited α] (lt : α → α → Bool)
    (hirr : ∀ x, lt x x = false)
    (hasym : ∀ x y, lt x y = true → lt y x = false)
    (htrans : ∀ x y z, lt y x = false → lt z y = false → lt z x = false)
    (l : List α) (pos : Nat) (hlen : pos < l.length)
    (hedges : ∀ p c, Desc pos p → (c = 2 * p + 1 ∨ c = 2 * p + 2) → c < l.length →
      p ≠ pos → lt (l.getD c default) (l.getD p default) = false) :
    SubHeap lt (siftup lt l pos) pos ∧
    (∀ j, ¬ Desc pos j → (siftup lt l pos).getD j default = l.getD j default) ∧
    (siftup lt l pos).length = l.length := by
  rw [siftup]
  obtain ⟨k1, k2, k3, k4, k5, k6⟩ := siftupLoop_ok lt hasym pos l.length l pos
    (by omega) (Desc.refl pos) hlen
    (fun p c hdp hsh hcl hph _ => hedges p c hdp hsh hcl hph)
    (fun hx => absurd rfl hx) (fun hx => absurd rfl hx)
  have hlen3 : ((siftupLoop lt l.length l pos).1.set
      (siftupLoop lt l.length l pos).2 (l.getD pos default)).length = l.length := by
    rw [List.length_set, k3]
  have hgetne3 : ∀ j, j ≠ (siftupLoop lt l.length l pos).2 →
      ((siftupLoop lt l.length l pos).1.set
        (siftupLoop lt l.length l pos).2 (l.getD pos default)).getD j default =
      (siftupLoop lt l.length l pos).1.getD j default :=
    fun j hj => getD_set_ne _ _ j _ default (fun hx => hj hx.symm)
  have hedges3 : ∀ p c, Desc pos p → (c = 2 * p + 1 ∨ c = 2 * p + 2) →
      c < ((siftupLoop lt l.length l pos).1.set
        (siftupLoop lt l.length l pos).2 (l.getD pos default)).length →
      c ≠ (siftupLoop lt l.length l pos).2 →
      lt (((siftupLoop lt l.length l pos).1.set
          (siftupLoop lt l.length l pos).2 (l.getD pos default)).getD c default)
        (((siftupLoop lt l.length l pos).1.set
          (siftupLoop lt l.length l pos).2 (l.getD pos default)).getD p default) =
        false := by
    intro p c hdp hsh hcl hcne
    rw [hlen3] at hcl
    by_cases hph : p = (siftupLoop lt l.length l pos).2
    · exact absurd hcl (by rw [hph] at hsh; rcases hsh with hsh | hsh <;> omega)
    · rw [hgetne3 c hcne, hgetne3 p hph]
      exact k5 p c hdp hsh hcl hcne
  obtain ⟨hS, hloc, hflen⟩ := siftdown_leaf_ok lt hirr hasym htrans
    ((siftupLoop lt l.length l pos).1.set
      (siftupLoop lt l.length l pos).2 (l.getD pos default)) pos
    (siftupLoop lt l.length l pos).2 k1 (by rw [hlen3]; exact k2)
    (by rw [hlen3]; exact k4) hedges3
  refine ⟨hS, ?_, by rw [hflen, hlen3]⟩
  intro j hj
  rw [hloc j hj, hgetne3 j (fun hx => hj (hx.symm ▸ k1)), k6 j hj]

theorem heapifyLoop_isHeap {α : Type} [Inhabited α] (lt : α → α → Bool)
    (hirr : ∀ x, lt x x = false)
    (hasym : ∀ x y, lt x y = true → lt y x = false)
    (htrans : ∀ x y z, lt y x = false → lt z y = false → lt z x = false) :
    ∀ (k : Nat) (l : List α), k ≤ l.length / 2 →
      (∀ p c, k ≤ p → (c = 2 * p + 1 ∨ c = 2 * p + 2) → c < l.length →
        lt (l.getD c default) (l.getD p default) = false) →
      IsHeap lt (heapifyLoop lt k l) := by
  intro k
  induction k with
  | zero =>
    intro l hk hEdges
    exact fun p c hsh hcl => hEdges p c (Nat.zero_le p) hsh hcl
  | succ j ih =>
    intro l hk hEdges
    rw [heapifyLoop]
    have hjl : j < l.length := by omega
    obtain ⟨hS, hloc, hlen⟩ := siftup_ok lt hirr hasym htrans l j hjl
      (fun p c hdp hsh hcl hppos =>
        hEdges p c (by have := desc_le hdp; omega) hsh hcl)
    refine ih (siftup lt l j) (by rw [hlen]; omega) ?_
    intro p c hjp hsh hcl
    have hcl2 : c < l.length := by
      rw [← hlen]
      exact hcl
    by_cases hdp : Desc j p
    · exact hS p c hdp hsh hcl
    · have hpj : p ≠ j := fun hx => hdp (by rw [hx]; exact Desc.refl j)
      have hdc : ¬ Desc j c := not_desc_child hjp hdp hsh
      rw [hloc p hdp, hloc c hdc]
      exact hEdges p c (by omega) hsh hcl2

theorem heapify_isHeap {α : Type} [Inhabited α] (lt : α → α → Bool)
    (hirr : ∀ x, lt x x = false)
    (hasym : ∀ x y, lt x y = true → lt y x = false)
    (htrans : ∀ x y z, lt y x = false → lt z y = false → lt z x = false)
    (l : List α) : IsHeap lt (heapify lt l) := by
  rw [heapify]
  refine heapifyLoop_isHeap lt hirr hasym htrans (l.length / 2) l (Nat.le_refl _) ?_
  intro p c hp hsh hcl
  exact absurd hcl (by rcases hsh with hsh | hsh <;> omega)

theorem isHeap_root_le {α : Type} [Inhabited α] (lt : α → α → Bool)
    (hirr : ∀ x, lt x x = false)
    (htrans : ∀ x y z, lt y x = false → lt z y = false → lt z x = false)
    (l : List α) (hheap : IsHeap lt l) :
    ∀ j, j < l.length → lt (l.getD j default) (l.getD 0 default) = false := by
  intro j
  induction j using Nat.strong_induction_on with
  | _ j ih =>
    intro hj
    rcases Nat.eq_zero_or_pos j with hz | hp
    · rw [hz]
      exact hirr _
    · have hpar : (j - 1) / 2 < j := by omega
      have hsh : j = 2 * ((j - 1) / 2) + 1 ∨ j = 2 * ((j - 1) / 2) + 2 := by omega
      exact htrans _ _ _ (ih ((j - 1) / 2) hpar (by omega))
        (hheap ((j - 1) / 2) j hsh hj)

theorem getD_eq_get {α : Type} (l : List α) (d : α) (j : Nat) (hj : j < l.length) :
    l.getD j d = l.get ⟨j, hj⟩ := by
  induction l generalizing j with
  | nil => simp at hj
  | cons x xs ih =>
    cases j with
    | zero => rfl
    | succ j2 => exact ih j2 (by simpa using hj)

theorem isHeap_root_min_mem {α : Type} [Inhabited α] (lt : α → α → Bool)
    (hirr : ∀ x, lt x x = false)
    (htrans : ∀ x y z, lt y x = false → lt z y = false → lt z x = false)
    (l : List α) (hheap : IsHeap lt l) (x : α) (hx : x ∈ l) :
    lt x (l.getD 0 default) = false := by
  obtain ⟨⟨j, hj⟩, hget⟩ := List.mem_iff_get.mp hx
  have hr := isHeap_root_le lt hirr htrans l hheap j hj
  rw [getD_eq_get l default j hj, hget] at hr
  exact hr

theorem pqlt_irrefl (x : PQItem) : PQItem.lt x x = false := by
  have hr : pqItemCmp x x = Ordering.eq := Batteries.OrientedCmp.cmp_refl
  rw [PQItem.lt, hr]
  rfl

theorem pq_not_lt_iff (a b : PQItem) :
    PQItem.lt a b = false ↔ pqItemCmp b a ≠ Ordering.gt := by
  rw [PQItem.lt]
  constructor
  · intro h hg
    rw [Batteries.OrientedCmp.cmp_eq_gt.mp hg] at h
    exact absurd h (by decide)
  · intro h
    rcases e : pqItemCmp a b with _ | _ | _
    · exact absurd (Batteries.OrientedCmp.cmp_eq_gt.mpr e) h
    · rfl
    · rfl

theorem pqlt_asymm (x y : PQItem) (h : PQItem.lt x y = true) :
    PQItem.lt y x = false := by
  rw [PQItem.lt] at h
  have hlt : pqItemCmp x y = Ordering.lt := by
    rcases e : pqItemCmp x y with _ | _ | _
    · rfl
    · rw [e] at h
      exact absurd h (by decide)
    · rw [e] at h
      exact absurd h (by decide)
  rw [pq_not_lt_iff, hlt]
  decide

theorem pqlt_le_trans (x y z : PQItem) (h1 : PQItem.lt y x = false)
    (h2 : PQItem.lt z y = false) : PQItem.lt z x = false := by
  rw [pq_not_lt_iff] at h1 h2 ⊢
  exact Batteries.TransCmp.le_trans h1 h2

theorem pq_not_lt_score (x y : PQItem) (h : PQItem.lt x y = false) :
    y.score.ble x.score = true := by
  rw [PQItem.lt] at h
  have hns : fracCmp x.score y.score ≠ Ordering.lt := by
    intro he
    simp only [pqItemCmp, he] at h
    simp [Ordering.then] at h
    exact absurd h (by decide)
  have hblt : x.score.blt y.score = false := by
    rcases e : x.score.blt y.score with _ | _
    · rfl
    · exact absurd (by rw [fracCmp, e]; rfl) hns
  have hnlt : ¬ (x.score.toRat < y.score.toRat) := fun hc =>
    absurd (hblt ▸ (Frac.blt_iff x.score y.score).mpr hc) (by decide)
  rw [Frac.ble_iff]
  exact le_of_not_lt hnlt

theorem runTraceE_lease_cons (s : EnhancedFrontierState) (t : Frac) (ops : List FOp) :
    runTraceE s (FOp.lease t :: ops) =
      ((runTraceE (s.lease t).2 ops).1,
       (match (leaseScanE s.pq 0 s.tokens t).1 with
        | some (_, item) => item :: (runTraceE (s.lease t).2 ops).2.1
        | none => (runTraceE (s.lease t).2 ops).2.1),
       (leaseScanE s.pq 0 s.tokens t).2.2 ++ (runTraceE (s.lease t).2 ops).2.2) := rfl

theorem lease_pq_scan_none (s : EnhancedFrontierState) (now : Frac)
    (h : (leaseScanE s.pq 0 s.tokens now).1 = none) :
    (s.lease now).2.pq = s.pq := by
  rw [EnhancedFrontierState.lease]
  simp [h]

theorem lease_pq_scan_some (s : EnhancedFrontierState) (now : Frac) (i : Nat)
    (item : PQItem) (h : (leaseScanE s.pq 0 s.tokens now).1 = some (i, item)) :
    (s.lease now).2.pq = heapify PQItem.lt (s.pq.eraseIdx i) := by
  rw [EnhancedFrontierState.lease]
  simp [h]

theorem runTraceE_drain (times : List Frac) :
    ∀ (s : EnhancedFrontierState),
      FrontierInvE s → IsHeap PQItem.lt s.pq →
      (∀ e ∈ (runTraceE s (times.map FOp.lease)).2.2, e.2 = true) →
      List.Chain' (fun a b : PQItem => a.score.ble b.score = true)
        (runTraceE s (times.map FOp.lease)).2.1 ∧
      (∀ it ∈ (runTraceE s (times.map FOp.lease)).2.1, it ∈ s.pq) := by
  induction times with
  | nil =>
    intro s _ _ _
    exact ⟨List.chain'_nil, fun it hit => absurd hit (List.not_mem_nil it)⟩
  | cons t ts ih =>
    intro s hinv hheap hall
    simp only [List.map_cons, runTraceE_lease_cons] at hall ⊢
    rcases hpq : s.pq with _ | ⟨item0, rest⟩
    · have hscan1 : (leaseScanE ([] : List PQItem) 0 s.tokens t).1 = none := rfl
      have hpq' : (s.lease t).2.pq = s.pq :=
        lease_pq_scan_none s t (by rw [hpq]; rfl)
      obtain ⟨hchain, hmem⟩ := ih (s.lease t).2 (frontierInvE_lease s t hinv)
        (by rw [hpq']; exact hheap)
        (fun e he => hall e (List.mem_append_right _ he))
      simp only [hscan1]
      refine ⟨hchain, fun it hit => ?_⟩
      have h1 := hmem it hit
      rw [hpq', hpq] at h1
      exact h1
    · have hmem0 : item0 ∈ s.pq := by
        rw [hpq]
        exact List.mem_cons_self item0 rest
      obtain ⟨b, hb⟩ := Option.isSome_iff_exists.mp (hinv.2.2 item0 hmem0)
      by_cases hallow : (b.allow t).1 = true
      · have hscan : leaseScanE (item0 :: rest) 0 s.tokens t =
            (some (0, item0), alistSet s.tokens item0.host (b.allow t).2,
              [(item0.host, true)]) :=
          leaseScanE_cons_allow item0 rest 0 s.tokens t b hb hallow
      -- the lease removes index 0 and re-heapifies the remainder
        have hpq' : (s.lease t).2.pq = heapify PQItem.lt rest := by
          rw [lease_pq_scan_some s t 0 item0 (by rw [hpq, hscan]), hpq]
          rfl
        have hheap' : IsHeap PQItem.lt (s.lease t).2.pq := by
          rw [hpq']
          exact heapify_isHeap PQItem.lt pqlt_irrefl pqlt_asymm pqlt_le_trans rest
        have hall2 : ∀ e ∈ (runTraceE (s.lease t).2 (ts.map FOp.lease)).2.2,
            e.2 = true :=
          fun e he => hall e (List.mem_append_right _ he)
        obtain ⟨hchain, hmem⟩ := ih (s.lease t).2 (frontierInvE_lease s t hinv)
          hheap' hall2
        have hmemS : ∀ it, it ∈ (runTraceE (s.lease t).2 (ts.map FOp.lease)).2.1 →
            it ∈ item0 :: rest := by
          intro it hit
          have h1 := hmem it hit
          rw [hpq'] at h1
          exact List.mem_cons_of_mem item0
            ((heapify_perm PQItem.lt rest).mem_iff.mp h1)
        have hroot : ∀ y, y ∈ item0 :: rest → PQItem.lt y item0 = false := by
          intro y hy
          have hy2 : y ∈ s.pq := by
            rw [hpq]
            exact hy
          have hr := isHeap_root_min_mem PQItem.lt pqlt_irrefl pqlt_le_trans
            s.pq hheap y hy2
          have hg : s.pq.getD 0 default = item0 := by
            rw [hpq]
            rfl
          rw [hg] at hr
          exact hr
        simp only [hscan]
        constructor
        · rw [List.chain'_cons']
          refine ⟨?_, hchain⟩
          intro y hy
          have hyl := List.mem_of_mem_head? hy
          exact pq_not_lt_score y item0 (hroot y (hmemS y hyl))
        · intro it hit
          rcases List.mem_cons.mp hit with he | hm
          · rw [he]
            exact List.mem_cons_self item0 rest
          · exact hmemS it hm
      · simp only [Bool.not_eq_true] at hallow
        have hscan : leaseScanE (item0 :: rest) 0 s.tokens t =
            ((leaseScanE rest 1 (alistSet s.tokens item0.host (b.allow t).2) t).1,
             (leaseScanE rest 1 (alistSet s.tokens item0.host (b.allow t).2) t).2.1,
             (item0.host, false) ::
               (leaseScanE rest 1 (alistSet s.tokens item0.host (b.allow t).2) t).2.2) :=
          leaseScanE_cons_deny item0 rest 0 s.tokens t b hb hallow
        have hfalse := hall (item0.host, false)
          (by rw [hpq, hscan]; exact List.mem_append_left _ (List.mem_cons_self _ _))
        exact absurd (Bool.false_ne_true hfalse) not_false

theorem enqueue_isHeap (s : EnhancedFrontierState) (url : String) (d : Nat)
    (now : Frac) (h : IsHeap PQItem.lt s.pq) :
    IsHeap PQItem.lt (s.enqueue url d now).2.pq := by
  rcases enqueue_shape s url d now with ⟨hp, _, _⟩ | ⟨item, host, _, _, hp, _, _⟩
  · rw [hp]
    exact h
  · rw [hp]
    exact heappush_isHeap PQItem.lt pqlt_irrefl pqlt_asymm pqlt_le_trans s.pq item h

theorem runE_cons (s : EnhancedFrontierState) (op : FOp) (ops : List FOp) :
    runE s (op :: ops) = runE (s.step op) ops := rfl

theorem runE_enqs_isHeap (enqs : List (String × Nat × Frac)) :
    ∀ s : EnhancedFrontierState, IsHeap PQItem.lt s.pq →
      IsHeap PQItem.lt (runE s (enqs.map (fun a => FOp.enq a.1 a.2.1 a.2.2))).pq := by
  induction enqs with
  | nil =>
    intro s h
    exact h
  | cons e es ih =>
    intro s h
    rw [List.map_cons, runE_cons]
    exact ih _ (enqueue_isHeap s e.1 e.2.1 e.2.2 h)

/-- C2 (amended): the lease scan walks the queue in heap-array order — not in
globally ascending-score order — and interleaved enqueues can push a
smaller-score item after a larger one has been leased (see the
counterexample).  What does hold: in a run where all enqueues precede all
leases and every `allow()` check made during the lease phase admits, the
leased items' priority scores are non-decreasing, because each lease removes
the heap root, which is minimal in the current queue. -/
theorem C2_amended_enqueue_then_drain (md : Nat) (rl : Frac)
    (enqs : List (String × Nat × Frac)) (times : List Frac)
    (hall : ∀ e ∈ (runTraceE (runE (EnhancedFrontierState.init md rl)
        (enqs.map (fun a => FOp.enq a.1 a.2.1 a.2.2)))
        (times.map FOp.lease)).2.2, e.2 = true) :
    List.Chain' (fun a b : PQItem => a.score.ble b.score = true)
      (runTraceE (runE (EnhancedFrontierState.init md rl)
        (enqs.map (fun a => FOp.enq a.1 a.2.1 a.2.2)))
        (times.map FOp.lease)).2.1 :=
  (runTraceE_drain times _
    (frontierInvE_run _ _ (frontierInvE_init md rl))
    (runE_enqs_isHeap enqs _ (isHeap_nil PQItem.lt))
    hall).1

set_option maxRecDepth 100000 in
/-- C2 amended witness: two enqueues then two leases on a fresh frontier; both
`allow()` checks admit, and the leased scores come out `0.3` then `0.4`:
non-decreasing. -/
theorem C2_witness :
    List.Chain' (fun a b : PQItem => a.score.ble b.score = true)
      (runTraceE (runE (EnhancedFrontierState.init 3 (Frac.ofNat 1))
        ([("http://x.example/a", 2, Frac.ofNat 0),
          ("http://y.example/", 1, Frac.ofNat 0)].map
          (fun a => FOp.enq a.1 a.2.1 a.2.2)))
        ([Frac.ofNat 0, Frac.ofNat 0].map FOp.lease)).2.1 :=
  C2_amended_enqueue_then_drain 3 (Frac.ofNat 1)
    [("http://x.example/a", 2, Frac.ofNat 0), ("http://y.example/", 1, Frac.ofNat 0)]
    [Frac.ofNat 0, Frac.ofNat 0] (by decide)
